import Mathlib

/-!
Verification development for the transformersjs-bench job scheduling,
execution and result-identity subsystem.

The TypeScript sources are shallowly embedded:

* JavaScript numbers are modelled as rationals (`ℚ`).  The runtime values
  `NaN` and `undefined`, which arise from out-of-range array indexing and
  arithmetic on such results, are modelled by the dedicated constructors of
  `JSNum`.
* `Array.prototype.sort` with the comparator `(x, y) => x - y` sorts
  numerically ascending; since a sorted list of rationals is the unique
  sorted permutation of its input, it is modelled by `List.insertionSort`.
* `Number.prototype.toFixed(1)` (followed by unary `+`) is modelled by
  rounding to the nearest tenth, half away from zero; for the non-negative
  latencies involved this agrees with the ECMAScript definition on exact
  decimal inputs.
-/

namespace Bench

/-- Outcome of a JavaScript numeric expression: an ordinary number, `NaN`,
or `undefined` (the value of an out-of-range array access). -/
inductive JSNum where
  | val (x : ℚ)
  | nan
  | undef
deriving DecidableEq, Repr

/-- JavaScript addition: any operand that is `NaN` or `undefined` makes the
result `NaN` (undefined coerces to NaN under arithmetic). -/
def jsAdd : JSNum → JSNum → JSNum
  | .val a, .val b => .val (a + b)
  | _, _ => .nan

/-- JavaScript subtraction with `NaN`/`undefined` propagation. -/
def jsSub : JSNum → JSNum → JSNum
  | .val a, .val b => .val (a - b)
  | _, _ => .nan

/-- JavaScript multiplication with `NaN`/`undefined` propagation. -/
def jsMul : JSNum → JSNum → JSNum
  | .val a, .val b => .val (a * b)
  | _, _ => .nan

/-- JavaScript array indexing `a[i]` with an integer index: the element when
`i` is in range, `undefined` otherwise. -/
def jsIndex (a : List ℚ) (i : ℤ) : JSNum :=
  if h : 0 ≤ i ∧ i.toNat < a.length then .val (a.get ⟨i.toNat, h.2⟩) else (.undef)

/-- Model of `[...values].sort((x, y) => x - y)`: numeric ascending sort of
a copy of the input. -/
def jsSortAsc (l : List ℚ) : List ℚ := l.insertionSort (· ≤ ·)

/-- Embedding of `percentile` from `src/bench/src/core/metrics.ts`:

```
const a = [...values].sort((x, y) => x - y);
const i = (a.length - 1) * q;
const i0 = Math.floor(i), i1 = Math.ceil(i);
return i0 === i1 ? a[i0] : a[i0] + (a[i1] - a[i0]) * (i - i0);
```
-/
def percentile (values : List ℚ) (q : ℚ) : JSNum :=
  let a := jsSortAsc values
  let i : ℚ := ((a.length : ℚ) - 1) * q
  let i0 : ℤ := ⌊i⌋
  let i1 : ℤ := ⌈i⌉
  if i0 = i1 then jsIndex a i0
  else jsAdd (jsIndex a i0) (jsMul (jsSub (jsIndex a i1) (jsIndex a i0)) (.val (i - (i0 : ℚ))))

/-- Reference definition of the percentile written from the specification's
words: sort a copy ascending, take the fractional index `i = (n-1)·q`; if `i`
is integral return the element at index `i`, otherwise linearly interpolate
between the elements at `⌊i⌋` and `⌈i⌉`. -/
def percentileSpec (values : List ℚ) (q : ℚ) : ℚ :=
  let a := jsSortAsc values
  let i : ℚ := ((a.length : ℚ) - 1) * q
  if ⌊i⌋ = ⌈i⌉ then a.getD (⌊i⌋).toNat 0
  else a.getD (⌊i⌋).toNat 0 + (a.getD (⌈i⌉).toNat 0 - a.getD (⌊i⌋).toNat 0) * (i - (⌊i⌋ : ℚ))

/-- The conventional median: middle element of the ascending sort for odd
length, mean of the two middle elements for even length. -/
def median (values : List ℚ) : ℚ :=
  let a := jsSortAsc values
  let n := a.length
  if n % 2 = 1 then a.getD (n / 2) 0
  else (a.getD (n / 2 - 1) 0 + a.getD (n / 2) 0) / 2

/-- One repetition's raw timings (`BenchmarkRawResult` in `metrics.ts`). -/
structure BenchmarkRawResult where
  load_ms : ℚ
  first_infer_ms : ℚ
  subsequent_infer_ms : List ℚ
deriving DecidableEq, Repr

/-- One aggregated quantity in `BenchmarkMetrics`: p50, p90 and the raw
flattened sample sequence. -/
structure MetricEntry where
  p50 : JSNum
  p90 : JSNum
  raw : List ℚ
deriving DecidableEq, Repr

/-- Aggregated metrics for the three measured quantities. -/
structure BenchmarkMetrics where
  load_ms : MetricEntry
  first_infer_ms : MetricEntry
  subsequent_infer_ms : MetricEntry
deriving DecidableEq, Repr

/-- Model of `+x.toFixed(1)`: round to one decimal place.  `NaN.toFixed(1)`
is `"NaN"` and `+"NaN"` is `NaN` again; the `undef` case cannot arise at the
call sites in `aggregateMetrics` and is mapped to `NaN` as well. -/
def jsToFixed1 : JSNum → JSNum
  | .val x => .val ((round (x * 10) : ℚ) / 10)
  | _ => .nan

/-- The accumulation loop of `aggregateMetrics`: for each raw result push
its load latency, its first-inference latency, and append its
subsequent-inference sub-sequence, in collection order. -/
def aggregateLoop : List BenchmarkRawResult → List ℚ × List ℚ × List ℚ → List ℚ × List ℚ × List ℚ
  | [], acc => acc
  | r :: rs, (loads, firsts, subs) =>
      aggregateLoop rs (loads ++ [r.load_ms], firsts ++ [r.first_infer_ms], subs ++ r.subsequent_infer_ms)

/-- Embedding of `aggregateMetrics` from `metrics.ts`. -/
def aggregateMetrics (results : List BenchmarkRawResult) : BenchmarkMetrics :=
  let acc := aggregateLoop results ([], [], [])
  let loads := acc.1
  let firsts := acc.2.1
  let subs := acc.2.2
  { load_ms :=
      { p50 := jsToFixed1 (percentile loads (1/2))
        p90 := jsToFixed1 (percentile loads (9/10))
        raw := loads }
    first_infer_ms :=
      { p50 := jsToFixed1 (percentile firsts (1/2))
        p90 := jsToFixed1 (percentile firsts (9/10))
        raw := firsts }
    subsequent_infer_ms :=
      { p50 := jsToFixed1 (percentile subs (1/2))
        p90 := jsToFixed1 (percentile subs (9/10))
        raw := subs } }

/-! ### Basic facts about the sort and indexing models -/

lemma jsSortAsc_length (l : List ℚ) : (jsSortAsc l).length = l.length :=
  (List.perm_insertionSort _ l).length_eq

lemma jsSortAsc_sorted (l : List ℚ) : List.Sorted (· ≤ ·) (jsSortAsc l) :=
  List.sorted_insertionSort _ l

lemma jsSortAsc_nil : jsSortAsc [] = [] := rfl

lemma jsIndex_nil (k : ℤ) : jsIndex [] k = .undef := by
  rw [jsIndex]
  exact dif_neg (by simp)

lemma jsIndex_of_range {a : List ℚ} {k : ℤ} (h0 : 0 ≤ k) (h : k.toNat < a.length) :
    jsIndex a k = .val (a.getD k.toNat 0) := by
  rw [jsIndex, dif_pos ⟨h0, h⟩, List.getD_eq_get _ _ h]

lemma sorted_getD_mono {a : List ℚ} (ha : List.Sorted (· ≤ ·) a) {p q : ℕ}
    (hpq : p ≤ q) (hq : q < a.length) : a.getD p 0 ≤ a.getD q 0 := by
  rcases eq_or_lt_of_le hpq with rfl | hlt
  · exact le_refl _
  · have hp : p < a.length := lt_trans hlt hq
    rw [List.getD_eq_get _ _ hp, List.getD_eq_get _ _ hq]
    exact List.pairwise_iff_get.mp ha ⟨p, hp⟩ ⟨q, hq⟩ hlt

lemma floorQ_eq {a : ℚ} {n : ℤ} (h1 : (n : ℚ) ≤ a) (h2 : a < (n : ℚ) + 1) : ⌊a⌋ = n :=
  Int.floor_eq_iff.mpr ⟨h1, h2⟩

lemma ceilQ_eq {a : ℚ} {n : ℤ} (h1 : (n : ℚ) - 1 < a) (h2 : a ≤ (n : ℚ)) : ⌈a⌉ = n :=
  Int.ceil_eq_iff.mpr ⟨h1, h2⟩

/-- Linear interpolation of a sorted list read at the fractional index `i`,
the common form of both branches of the percentile. -/
def interp (a : List ℚ) (i : ℚ) : ℚ :=
  a.getD (⌊i⌋).toNat 0 + (a.getD (⌈i⌉).toNat 0 - a.getD (⌊i⌋).toNat 0) * (i - (⌊i⌋ : ℚ))

lemma percentileSpec_eq_interp (values : List ℚ) (q : ℚ) :
    percentileSpec values q =
      interp (jsSortAsc values) ((((jsSortAsc values).length : ℚ) - 1) * q) := by
  unfold percentileSpec interp
  dsimp only
  split_ifs with h
  · have hle : (((jsSortAsc values).length : ℚ) - 1) * q ≤
        (⌊(((jsSortAsc values).length : ℚ) - 1) * q⌋ : ℚ) := by
      calc (((jsSortAsc values).length : ℚ) - 1) * q
          ≤ (⌈(((jsSortAsc values).length : ℚ) - 1) * q⌉ : ℚ) := Int.le_ceil _
        _ = (⌊(((jsSortAsc values).length : ℚ) - 1) * q⌋ : ℚ) := by rw [h]
    have heq : ((⌊(((jsSortAsc values).length : ℚ) - 1) * q⌋ : ℤ) : ℚ) =
        (((jsSortAsc values).length : ℚ) - 1) * q :=
      le_antisymm (Int.floor_le _) hle
    rw [heq]
    ring
  · rfl

lemma interp_mono {a : List ℚ} (ha : List.Sorted (· ≤ ·) a) {i j : ℚ}
    (h0 : 0 ≤ i) (hij : i ≤ j) (hj : j ≤ (a.length : ℚ) - 1) :
    interp a i ≤ interp a j := by
  have h0j : 0 ≤ j := le_trans h0 hij
  have hi' : i ≤ (a.length : ℚ) - 1 := le_trans hij hj
  have hn1 : (1 : ℚ) ≤ (a.length : ℚ) := by linarith
  have hk0 : (0 : ℤ) ≤ ⌊i⌋ := Int.floor_nonneg.mpr h0
  have hl0 : (0 : ℤ) ≤ ⌊j⌋ := Int.floor_nonneg.mpr h0j
  have hk1 : ⌈i⌉ ≤ (a.length : ℤ) - 1 := Int.ceil_le.mpr (by push_cast; linarith)
  have hl1 : ⌈j⌉ ≤ (a.length : ℤ) - 1 := Int.ceil_le.mpr (by push_cast; linarith)
  have hfci : ⌊i⌋ ≤ ⌈i⌉ := Int.floor_le_ceil i
  have hfcj : ⌊j⌋ ≤ ⌈j⌉ := Int.floor_le_ceil j
  have hffm : ⌊i⌋ ≤ ⌊j⌋ := Int.floor_mono hij
  have hik0 : (⌊i⌋).toNat < a.length := by omega
  have hik1 : (⌈i⌉).toNat < a.length := by omega
  have hjk0 : (⌊j⌋).toNat < a.length := by omega
  have hjk1 : (⌈j⌉).toNat < a.length := by omega
  have hA_i : a.getD (⌊i⌋).toNat 0 ≤ a.getD (⌈i⌉).toNat 0 :=
    sorted_getD_mono ha (by omega) hik1
  have hA_j : a.getD (⌊j⌋).toNat 0 ≤ a.getD (⌈j⌉).toNat 0 :=
    sorted_getD_mono ha (by omega) hjk1
  have ht0i : (⌊i⌋ : ℚ) ≤ i := Int.floor_le i
  have ht1i : i < (⌊i⌋ : ℚ) + 1 := Int.lt_floor_add_one i
  have ht0j : (⌊j⌋ : ℚ) ≤ j := Int.floor_le j
  by_cases hc : ⌈i⌉ ≤ ⌊j⌋
  · have hmid : a.getD (⌈i⌉).toNat 0 ≤ a.getD (⌊j⌋).toNat 0 :=
      sorted_getD_mono ha (by omega) hjk0
    have hupper : interp a i ≤ a.getD (⌈i⌉).toNat 0 := by
      have key : (a.getD (⌈i⌉).toNat 0 - a.getD (⌊i⌋).toNat 0) * (i - (⌊i⌋ : ℚ)) ≤
          (a.getD (⌈i⌉).toNat 0 - a.getD (⌊i⌋).toNat 0) * 1 :=
        mul_le_mul_of_nonneg_left (by linarith) (sub_nonneg.mpr hA_i)
      rw [mul_one] at key
      unfold interp
      linarith
    have hlower : a.getD (⌊j⌋).toNat 0 ≤ interp a j := by
      have key : 0 ≤ (a.getD (⌈j⌉).toNat 0 - a.getD (⌊j⌋).toNat 0) * (j - (⌊j⌋ : ℚ)) :=
        mul_nonneg (sub_nonneg.mpr hA_j) (by linarith)
      unfold interp
      linarith
    linarith
  · push_neg at hc
    have hcli : ⌈i⌉ ≤ ⌊i⌋ + 1 := Int.ceil_le_floor_add_one i
    have hclj : ⌈j⌉ ≤ ⌊j⌋ + 1 := Int.ceil_le_floor_add_one j
    have hfeq : ⌊j⌋ = ⌊i⌋ := by omega
    by_cases hint : ⌈j⌉ = ⌊j⌋
    · have hj_int : ((⌊j⌋ : ℤ) : ℚ) = j := by
        refine le_antisymm (Int.floor_le j) ?_
        calc j ≤ ((⌈j⌉ : ℤ) : ℚ) := Int.le_ceil j
          _ = ((⌊j⌋ : ℤ) : ℚ) := by rw [hint]
      have hij_eq : i = j := by
        refine le_antisymm hij ?_
        have : ((⌊j⌋ : ℤ) : ℚ) = ((⌊i⌋ : ℤ) : ℚ) := by rw [hfeq]
        linarith [ht0i]
      rw [hij_eq]
    · have hceq : ⌈j⌉ = ⌈i⌉ := by omega
      have e1 : (⌊j⌋).toNat = (⌊i⌋).toNat := by omega
      have e2 : (⌈j⌉).toNat = (⌈i⌉).toNat := by omega
      have e3 : ((⌊j⌋ : ℤ) : ℚ) = ((⌊i⌋ : ℤ) : ℚ) := by rw [hfeq]
      have key : (a.getD (⌈i⌉).toNat 0 - a.getD (⌊i⌋).toNat 0) * (i - (⌊i⌋ : ℚ)) ≤
          (a.getD (⌈i⌉).toNat 0 - a.getD (⌊i⌋).toNat 0) * (j - (⌊i⌋ : ℚ)) :=
        mul_le_mul_of_nonneg_left (by linarith) (sub_nonneg.mpr hA_i)
      unfold interp
      rw [e1, e2, e3]
      linarith

lemma percentile_eq_val (values : List ℚ) (q : ℚ) (hne : values ≠ [])
    (h0 : 0 ≤ q) (h1 : q ≤ 1) :
    percentile values q = .val (percentileSpec values q) := by
  have hn : 1 ≤ (jsSortAsc values).length := by
    rw [jsSortAsc_length]
    exact List.length_pos.mpr hne
  have hn1 : (1 : ℚ) ≤ ((jsSortAsc values).length : ℚ) := by exact_mod_cast hn
  unfold percentile percentileSpec
  dsimp only
  set a := jsSortAsc values with ha
  set i : ℚ := ((a.length : ℚ) - 1) * q with hi
  have hi0 : 0 ≤ i := mul_nonneg (by linarith) h0
  have hi1 : i ≤ (a.length : ℚ) - 1 := by
    calc i ≤ ((a.length : ℚ) - 1) * 1 := mul_le_mul_of_nonneg_left h1 (by linarith)
      _ = (a.length : ℚ) - 1 := mul_one _
  have hf0 : (0 : ℤ) ≤ ⌊i⌋ := Int.floor_nonneg.mpr hi0
  have hc1 : ⌈i⌉ ≤ (a.length : ℤ) - 1 := Int.ceil_le.mpr (by push_cast; linarith)
  have hfc : ⌊i⌋ ≤ ⌈i⌉ := Int.floor_le_ceil i
  have hfn : (⌊i⌋).toNat < a.length := by omega
  have hcn : (⌈i⌉).toNat < a.length := by omega
  split_ifs with h
  · exact jsIndex_of_range hf0 hfn
  · rw [jsIndex_of_range hf0 hfn, jsIndex_of_range (by omega) hcn]
    simp [jsAdd, jsSub, jsMul]

lemma percentileSpec_half (s : List ℚ) (hne : s ≠ []) :
    percentileSpec s (1/2) = median s := by
  have hn : 1 ≤ (jsSortAsc s).length := by
    rw [jsSortAsc_length]
    exact List.length_pos.mpr hne
  unfold percentileSpec median
  dsimp only
  set a := jsSortAsc s with ha
  by_cases hpar : a.length % 2 = 1
  · obtain ⟨m, hm⟩ : ∃ m, a.length = 2*m + 1 := ⟨a.length / 2, by omega⟩
    rw [hm]
    have hi : (((2*m + 1 : ℕ) : ℚ) - 1) * (1/2) = ((m : ℤ) : ℚ) := by push_cast; ring
    rw [hi, Int.floor_intCast, Int.ceil_intCast, if_pos rfl, if_pos (by omega)]
    have e1 : ((m : ℤ)).toNat = m := Int.toNat_natCast m
    have e2 : (2*m + 1) / 2 = m := by omega
    rw [e1, e2]
  · obtain ⟨m, hm, hm1⟩ : ∃ m, a.length = 2*m ∧ 1 ≤ m := ⟨a.length / 2, by omega, by omega⟩
    rw [hm]
    have hi : (((2*m : ℕ) : ℚ) - 1) * (1/2) = (m : ℚ) - 1/2 := by push_cast; ring
    rw [hi]
    have hfl : ⌊(m : ℚ) - 1/2⌋ = (m : ℤ) - 1 := floorQ_eq (by push_cast; linarith) (by push_cast; linarith)
    have hcl : ⌈(m : ℚ) - 1/2⌉ = (m : ℤ) := ceilQ_eq (by push_cast; linarith) (by push_cast; linarith)
    rw [hfl, hcl, if_neg (by omega), if_neg (by omega)]
    have e1 : ((m : ℤ) - 1).toNat = m - 1 := by omega
    have e2 : ((m : ℤ)).toNat = m := Int.toNat_natCast m
    have e3 : 2*m/2 = m := by omega
    rw [e1, e2, e3]
    have e4 : (m : ℚ) - 1/2 - (((m : ℤ) - 1 : ℤ) : ℚ) = 1/2 := by push_cast; ring
    rw [e4]
    ring

/-! ### Claims C5–C8 -/

/-- Claim C5 (counterexample): `percentile` applied to the empty sample list
does not signal `InvalidInput` or any other error — the source has no guard
or throw path at all.  At the concrete input `([], 0.5)` it evaluates
normally and returns the JavaScript value `NaN` (out-of-range indexing
yields `undefined`, which the interpolation arithmetic turns into `NaN`). -/
theorem C5_counterexample : percentile [] (1/2) = .nan := by
  unfold percentile
  dsimp only
  rw [jsSortAsc_nil]
  have e0 : (([] : List ℚ).length : ℚ) = 0 := by norm_num
  rw [e0]
  have e1 : ((0 : ℚ) - 1) * (1/2) = -(1/2) := by norm_num
  rw [e1]
  rw [show (⌊-(1/2 : ℚ)⌋ : ℤ) = -1 from floorQ_eq (by norm_num) (by norm_num)]
  rw [show (⌈-(1/2 : ℚ)⌉ : ℤ) = 0 from ceilQ_eq (by norm_num) (by norm_num)]
  rw [if_neg (by decide)]
  rw [jsIndex_nil, jsIndex_nil]
  rfl

/-- Claim C5 (amended): for empty input `percentile` never signals an error
and never returns an ordinary numeric value: it evaluates to `undefined`
(when the fractional index is integral) or `NaN` (otherwise). -/
theorem C5_amended_empty_input (q : ℚ) :
    (percentile [] q = .undef ∨ percentile [] q = .nan) ∧
      ∀ x : ℚ, percentile [] q ≠ .val x := by
  have hform : percentile [] q = .undef ∨ percentile [] q = .nan := by
    unfold percentile
    dsimp only
    rw [jsSortAsc_nil]
    split_ifs
    · exact Or.inl (jsIndex_nil _)
    · rw [jsIndex_nil, jsIndex_nil]
      exact Or.inr rfl
  refine ⟨hform, fun x hx => ?_⟩
  rcases hform with h | h <;> rw [hx] at h <;> exact JSNum.noConfusion h

/-- Claim C6: for every non-empty sample list and every quantile q ∈ [0, 1],
the code's `percentile` returns exactly the reference definition
`percentileSpec` (sort ascending, fractional index `(n-1)·q`, exact element
when integral, linear interpolation otherwise); in particular
`percentile [10, 20, 30, 40] 0.9 = 37`.  The code sorts a copy
(`[...values].sort`), so the input list itself is untouched, which is
implicit in this pure embedding. -/
theorem C6_percentile_matches_reference :
    (∀ (values : List ℚ) (q : ℚ), values ≠ [] → 0 ≤ q → q ≤ 1 →
        percentile values q = .val (percentileSpec values q)) ∧
      percentile [10, 20, 30, 40] (9/10) = .val 37 := by
  constructor
  · exact percentile_eq_val
  · rw [percentile_eq_val _ _ (by simp) (by norm_num) (by norm_num)]
    have hs : jsSortAsc [10, 20, 30, 40] = [10, 20, 30, 40] := by
      norm_num [jsSortAsc, List.insertionSort, List.orderedInsert]
    unfold percentileSpec
    dsimp only
    rw [hs]
    have e0 : (([10, 20, 30, 40] : List ℚ).length : ℚ) = 4 := by norm_num
    rw [e0]
    have e1 : ((4 : ℚ) - 1) * (9/10) = 27/10 := by norm_num
    rw [e1]
    rw [show (⌊(27 : ℚ)/10⌋ : ℤ) = 2 from floorQ_eq (by norm_num) (by norm_num)]
    rw [show (⌈(27 : ℚ)/10⌉ : ℤ) = 3 from ceilQ_eq (by norm_num) (by norm_num)]
    rw [if_neg (by decide)]
    rw [show (2 : ℤ).toNat = 2 from rfl, show (3 : ℤ).toNat = 3 from rfl]
    norm_num [List.getD]

/-- Witness for C6 at a concrete input. -/
theorem C6_percentile_matches_reference_witness :
    percentile [1, 2] (1/2) = .val (percentileSpec [1, 2] (1/2)) :=
  C6_percentile_matches_reference.1 [1, 2] (1/2) (by simp) (by norm_num) (by norm_num)

/-- Claim C7: for non-empty samples `percentile s 0.5` is the conventional
median, and the percentile is monotone non-decreasing in the quantile over
[0, 1]. -/
theorem C7_percentile_median_monotone (s : List ℚ) (q1 q2 : ℚ) (hne : s ≠ [])
    (hq0 : 0 ≤ q1) (hq12 : q1 ≤ q2) (hq1 : q2 ≤ 1) :
    percentile s (1/2) = .val (median s) ∧
      ∃ x1 x2, percentile s q1 = .val x1 ∧ percentile s q2 = .val x2 ∧ x1 ≤ x2 := by
  have hn : 1 ≤ (jsSortAsc s).length := by
    rw [jsSortAsc_length]
    exact List.length_pos.mpr hne
  have hn1 : (1 : ℚ) ≤ ((jsSortAsc s).length : ℚ) := by exact_mod_cast hn
  constructor
  · rw [percentile_eq_val s (1/2) hne (by norm_num) (by norm_num), percentileSpec_half s hne]
  · refine ⟨percentileSpec s q1, percentileSpec s q2,
      percentile_eq_val s q1 hne hq0 (le_trans hq12 hq1),
      percentile_eq_val s q2 hne (le_trans hq0 hq12) hq1, ?_⟩
    rw [percentileSpec_eq_interp, percentileSpec_eq_interp]
    apply interp_mono (jsSortAsc_sorted s)
    · exact mul_nonneg (by linarith) hq0
    · exact mul_le_mul_of_nonneg_left hq12 (by linarith)
    · calc (((jsSortAsc s).length : ℚ) - 1) * q2
          ≤ (((jsSortAsc s).length : ℚ) - 1) * 1 :=
            mul_le_mul_of_nonneg_left hq1 (by linarith)
        _ = ((jsSortAsc s).length : ℚ) - 1 := mul_one _

/-- Witness for C7 at a concrete input. -/
theorem C7_percentile_median_monotone_witness :
    percentile [3, 1, 2] (1/2) = .val (median [3, 1, 2]) ∧
      ∃ x1 x2, percentile [3, 1, 2] (1/4) = .val x1 ∧
        percentile [3, 1, 2] (3/4) = .val x2 ∧ x1 ≤ x2 :=
  C7_percentile_median_monotone [3, 1, 2] (1/4) (3/4) (by simp)
    (by norm_num) (by norm_num) (by norm_num)

lemma aggregateLoop_eq (results : List BenchmarkRawResult) (ls fs ss : List ℚ) :
    aggregateLoop results (ls, fs, ss) =
      (ls ++ results.map (·.load_ms), fs ++ results.map (·.first_infer_ms),
        ss ++ results.flatMap (·.subsequent_infer_ms)) := by
  induction results generalizing ls fs ss with
  | nil => simp [aggregateLoop]
  | cons r rs ih => simp [aggregateLoop, ih]

/-- Claim C8: `aggregateMetrics` flattens all load latencies into one
sequence, all first-inference latencies into a second, and concatenates the
subsequent-inference sub-sequences in collection order into a third; for
each it computes p50 and p90 (each rounded to one decimal place via
`toFixed(1)`) and retains the flattened raw sequence. -/
theorem C8_aggregate_structure (results : List BenchmarkRawResult) :
    aggregateMetrics results =
      { load_ms :=
          { p50 := jsToFixed1 (percentile (results.map (·.load_ms)) (1/2))
            p90 := jsToFixed1 (percentile (results.map (·.load_ms)) (9/10))
            raw := results.map (·.load_ms) }
        first_infer_ms :=
          { p50 := jsToFixed1 (percentile (results.map (·.first_infer_ms)) (1/2))
            p90 := jsToFixed1 (percentile (results.map (·.first_infer_ms)) (9/10))
            raw := results.map (·.first_infer_ms) }
        subsequent_infer_ms :=
          { p50 := jsToFixed1 (percentile (results.flatMap (·.subsequent_infer_ms)) (1/2))
            p90 := jsToFixed1 (percentile (results.flatMap (·.subsequent_infer_ms)) (9/10))
            raw := results.flatMap (·.subsequent_infer_ms) } } := by
  unfold aggregateMetrics
  rw [aggregateLoop_eq]
  simp

/-! ### String utilities for the identity codec

`src/bench/src/core/benchmark-id.ts` manipulates strings via JavaScript
builtins (template rendering of numbers, `split`, `join`, regex replaces).
These builtins are modelled below on `List Char` / `String`. -/

/-- ASCII whitespace recognised by the JavaScript `\s` class (the inputs at
hand contain only ASCII whitespace). -/
def isJsSpace (c : Char) : Bool :=
  c = ' ' || c = '\t' || c = '\n' || c = '\r' || c = '\x0b' || c = '\x0c'

/-- Decimal digit character for `d < 10`. -/
def digitChar (d : ℕ) : Char := Char.ofNat (48 + d)

/-- Big-endian decimal digit expansion with explicit fuel. -/
def natDigits : ℕ → ℕ → List Char
  | 0, _ => []
  | fuel + 1, n => if n < 10 then [digitChar n] else natDigits fuel (n / 10) ++ [digitChar (n % 10)]

/-- Model of JavaScript number-to-string conversion for natural numbers
(template literals such as `` `b${batchSize}` `` and `` `${cores}c` ``). -/
def natToString (n : ℕ) : String := ⟨natDigits (n + 1) n⟩

/-- Model of JavaScript number-to-string conversion for integer values. -/
def intToString (i : ℤ) : String :=
  if i < 0 then "-" ++ natToString (-i).toNat else natToString i.toNat

/-- Split a character list at every occurrence of `sep`, JavaScript
`String.prototype.split` with a one-character separator. -/
def splitOnChar (sep : Char) : List Char → List (List Char)
  | [] => [[]]
  | c :: cs =>
    match splitOnChar sep cs with
    | [] => [[]]
    | t :: ts => if c = sep then [] :: t :: ts else (c :: t) :: ts

/-- JavaScript `Array.prototype.join("_")`. -/
def joinUnderscore : List String → String
  | [] => ""
  | [t] => t
  | t :: ts => t ++ "_" ++ joinUnderscore ts

/-- Whitespace-collapsing core of `sanitizeEnvString`: each maximal
whitespace run becomes one dash (`replace(/\s+/g, "-")`).  The boolean
records whether the previous character was whitespace. -/
def collapseWsAux : Bool → List Char → List Char
  | _, [] => []
  | prevWs, c :: cs =>
    if isJsSpace c then
      if prevWs then collapseWsAux true cs else '-' :: collapseWsAux true cs
    else c :: collapseWsAux false cs

/-- Characters kept by `replace(/[^a-z0-9\-]/g, "")`. -/
def isSanitaryChar (c : Char) : Bool :=
  ('a' ≤ c && c ≤ 'z') || ('0' ≤ c && c ≤ '9') || c = '-'

/-- Embedding of `sanitizeEnvString`: lowercase, collapse whitespace runs to
single dashes, strip anything outside `[a-z0-9-]`, truncate to 20. -/
def sanitizeEnvString (s : String) : String :=
  ⟨(((collapseWsAux false (s.data.map Char.toLower)).filter isSanitaryChar).take 20)⟩

/-- Embedding of `str.split(/[\s(]/)[0]`: the leading segment before the
first whitespace or open-parenthesis character. -/
def firstWord (s : String) : String :=
  ⟨s.data.takeWhile (fun c => !(isJsSpace c || c = '('))⟩

/-- Leading-digit run of `str.match(/^(\d+)/)`: `some` digit string when the
string starts with a digit, `none` otherwise. -/
def leadingDigits (s : String) : Option String :=
  let ds := s.data.takeWhile Char.isDigit
  if ds.isEmpty then none else some ⟨ds⟩

/-! ### Identity codec data model (`benchmark-id.ts`) -/

/-- The `platform` field of `BenchmarkSettings`: `"node" | "web"`. -/
inductive JsPlatform where
  | node
  | web
deriving DecidableEq, Repr

/-- The `mode` field of `BenchmarkSettings`: `"warm" | "cold"`. -/
inductive JsMode where
  | warm
  | cold
deriving DecidableEq, Repr

/-- Token emitted for a platform. -/
def JsPlatform.token : JsPlatform → String
  | .node => "node"
  | .web => "web"

/-- Token emitted for a mode. -/
def JsMode.token : JsMode → String
  | .warm => "warm"
  | .cold => "cold"

/-- Flattened embedding of the `EnvironmentInfo` interface.  Each optional
access path of the TypeScript shape (`cpu?.model`, `cpu?.cores`,
`memory?.total`, `memory?.deviceMemory`, `gpu?.vendor`, `gpu?.renderer`,
`platform`, `arch`, top-level `cpuCores`) becomes one optional field. -/
structure EnvironmentInfo where
  cpuModel : Option String := none
  cpuCores : Option ℕ := none
  memoryTotal : Option String := none
  deviceMemory : Option ℕ := none
  gpuVendor : Option String := none
  gpuRenderer : Option String := none
  envPlatform : Option String := none
  arch : Option String := none
  webCpuCores : Option ℕ := none
deriving DecidableEq, Repr

/-- Embedding of the `BenchmarkSettings` interface. -/
structure BenchmarkSettings where
  platform : JsPlatform
  modelId : String
  task : String
  mode : JsMode
  device : Option String := none
  dtype : Option String := none
  batchSize : Option ℤ := none
  browser : Option String := none
  headed : Option Bool := none
  environment : Option EnvironmentInfo := none
deriving DecidableEq, Repr

/-- Environment-derived filename tokens (step 8 of `generateFilenameParts`),
with JavaScript truthiness (`""` and `0` are falsy) made explicit. -/
def envTokens (settings : BenchmarkSettings) (env : EnvironmentInfo) : List String :=
  (match env.cpuModel with
   | some m =>
       if m ≠ "" then
         let cpuName := sanitizeEnvString (firstWord m)
         if cpuName ≠ "" then [cpuName] else []
       else []
   | none => []) ++
  (let cores : Option ℕ :=
     match env.cpuCores with
     | some n => if n = 0 then env.webCpuCores else some n
     | none => env.webCpuCores
   match cores with
   | some n => if n ≠ 0 then [natToString n ++ "c"] else []
   | none => []) ++
  (match env.memoryTotal with
   | some t =>
       if t ≠ "" then
         match leadingDigits t with
         | some ds => [ds ++ "gb"]
         | none => []
       else
         match env.deviceMemory with
         | some d => if d ≠ 0 then [natToString d ++ "gb"] else []
         | none => []
   | none =>
       match env.deviceMemory with
       | some d => if d ≠ 0 then [natToString d ++ "gb"] else []
       | none => []) ++
  (match env.arch with
   | some a => if a ≠ "" then [a] else []
   | none => []) ++
  (if settings.platform = .web ∧ settings.device = some "webgpu" then
     match env.gpuVendor with
     | some v =>
         if v ≠ "" then
           let gpuVendor := sanitizeEnvString (firstWord v)
           if gpuVendor ≠ "" ∧ gpuVendor ≠ "google" then ["gpu-" ++ gpuVendor] else []
         else []
     | none => []
   else [])

/-- Embedding of `generateFilenameParts` from `benchmark-id.ts`. -/
def generateFilenameParts (settings : BenchmarkSettings) : List String :=
  [settings.platform.token, settings.mode.token] ++
  [(match settings.device with
    | some d =>
        if d ≠ "" then d
        else if settings.platform = .node then "cpu" else "webgpu"
    | none => if settings.platform = .node then "cpu" else "webgpu")] ++
  (match settings.dtype with
   | some d => if d ≠ "" then [d] else []
   | none => []) ++
  ["b" ++ intToString (match settings.batchSize with
    | some n => if n = 0 then 1 else n
    | none => 1)] ++
  (if settings.platform = .web then
     match settings.browser with
     | some b => if b ≠ "" then [b] else []
     | none => []
   else []) ++
  (if settings.platform = .web ∧ settings.headed = some true then ["headed"] else []) ++
  (match settings.environment with
   | some env => envTokens settings env
   | none => [])

/-- Embedding of `generateBenchmarkId`. -/
def generateBenchmarkId (settings : BenchmarkSettings) : String :=
  settings.task ++ "/" ++ settings.modelId ++ "/" ++ joinUnderscore (generateFilenameParts settings)

/-- The `{dir, filename, fullPath}` record of `generateBenchmarkPath`. -/
structure BenchPath where
  dir : String
  filename : String
  fullPath : String
deriving DecidableEq, Repr

/-- Embedding of `generateBenchmarkPath`. -/
def generateBenchmarkPath (settings : BenchmarkSettings) : BenchPath :=
  let dir := settings.task ++ "/" ++ settings.modelId
  let filename := joinUnderscore (generateFilenameParts settings) ++ ".jsonl"
  { dir := dir, filename := filename, fullPath := dir ++ "/" ++ filename }

/-! ### Effective identity fields (after JavaScript defaulting) -/

/-- Target-specific default device: `"cpu"` for node, `"webgpu"` for web. -/
def defaultDevice : JsPlatform → String
  | .node => "cpu"
  | .web => "webgpu"

/-- Device token after defaulting (`""` is falsy and also defaults). -/
def effDevice (s : BenchmarkSettings) : String :=
  match s.device with
  | some d => if d = "" then defaultDevice s.platform else d
  | none => defaultDevice s.platform

/-- Data-type after truthiness (`some ""` behaves like absent). -/
def effDtype (s : BenchmarkSettings) : Option String :=
  match s.dtype with
  | some d => if d = "" then none else some d
  | none => none

/-- Batch size after `batchSize || 1` defaulting (0 and absent become 1). -/
def effBatch (s : BenchmarkSettings) : ℤ :=
  match s.batchSize with
  | some n => if n = 0 then 1 else n
  | none => 1

/-- Browser token actually emitted: only on the web platform and when
truthy. -/
def effBrowser (s : BenchmarkSettings) : Option String :=
  if s.platform = .web then
    match s.browser with
    | some b => if b = "" then none else some b
    | none => none
  else none

/-- Whether the `headed` marker is emitted. -/
def effHeaded (s : BenchmarkSettings) : Bool :=
  decide (s.platform = .web ∧ s.headed = some true)

/-- The tuple of fields that determine a derived path (environment facts
excluded). -/
structure EffectiveIdentity where
  task : String
  modelId : String
  platform : JsPlatform
  mode : JsMode
  device : String
  dtype : Option String
  batch : ℤ
  browser : Option String
  headed : Bool
deriving DecidableEq, Repr

/-- The effective identity of a settings record. -/
def effectiveIdentity (s : BenchmarkSettings) : EffectiveIdentity :=
  { task := s.task, modelId := s.modelId, platform := s.platform, mode := s.mode
    device := effDevice s, dtype := effDtype s, batch := effBatch s
    browser := effBrowser s, headed := effHeaded s }

/-- Filename token list determined by an effective identity. -/
def canonicalParts (e : EffectiveIdentity) : List String :=
  [e.platform.token, e.mode.token, e.device] ++ e.dtype.toList ++
  ["b" ++ intToString e.batch] ++ e.browser.toList ++
  (if e.headed then ["headed"] else [])

lemma filenameParts_canonical (s : BenchmarkSettings) (henv : s.environment = none) :
    generateFilenameParts s = canonicalParts (effectiveIdentity s) := by
  rcases s with ⟨p, mid, tk, md, dev, dt, bs, br, hd, env⟩
  cases henv
  unfold generateFilenameParts canonicalParts effectiveIdentity effDevice effDtype effBatch
    effBrowser effHeaded defaultDevice
  cases p <;> rcases dev with _ | d <;> rcases dt with _ | dval <;>
    rcases br with _ | brval <;> rcases hd with _ | hdval <;>
    simp_all [JsPlatform.token, JsMode.token] <;> split_ifs <;> simp_all

lemma envTokens_no_webgpu {s : BenchmarkSettings} (env : EnvironmentInfo)
    (h : ¬(s.platform = .web ∧ s.device = some "webgpu")) :
    envTokens s env = envTokens s { env with gpuVendor := none } := by
  unfold envTokens
  rw [if_neg h, if_neg h]

lemma envTokens_google {s : BenchmarkSettings} (env : EnvironmentInfo) {v : String}
    (hv : env.gpuVendor = some v) (hg : sanitizeEnvString (firstWord v) = "google") :
    envTokens s env = envTokens s { env with gpuVendor := none } := by
  unfold envTokens
  by_cases h : s.platform = .web ∧ s.device = some "webgpu"
  · rw [if_pos h, if_pos h, hv]
    dsimp only
    by_cases hv0 : v = ""
    · rw [if_neg (by simp [hv0])]
    · rw [if_pos hv0, if_neg (by simp [hg])]
  · rw [if_neg h, if_neg h]

lemma filenameParts_env_congr {s : BenchmarkSettings} {env env2 : EnvironmentInfo}
    (henv : s.environment = some env)
    (h : envTokens s env = envTokens s env2) :
    generateFilenameParts s = generateFilenameParts { s with environment := some env2 } := by
  rcases s with ⟨p, mid, tk, md, dev, dt, bs, br, hd, e⟩
  cases henv
  unfold generateFilenameParts
  dsimp only at h ⊢
  rw [h]
  rfl

/-- Claim C10: the GPU-vendor environment token is appended only when the
`device` field is explicitly the string `"webgpu"`: whenever
`device ≠ some "webgpu"` (in particular for web-platform settings with the
device absent, where the filename's device slot still defaults to
`"webgpu"`) the derived parts are independent of any GPU vendor fact; and
the token is also suppressed when the sanitized first word of the vendor is
`"google"`. -/
theorem C10_gpu_vendor_token (s : BenchmarkSettings) (env : EnvironmentInfo)
    (henv : s.environment = some env) :
    (s.device ≠ some "webgpu" →
        generateFilenameParts s =
          generateFilenameParts { s with environment := some { env with gpuVendor := none } }) ∧
    (s.platform = .web → s.device = none →
        (generateFilenameParts s).getD 2 "" = "webgpu") ∧
    (∀ v, env.gpuVendor = some v → sanitizeEnvString (firstWord v) = "google" →
        generateFilenameParts s =
          generateFilenameParts { s with environment := some { env with gpuVendor := none } }) := by
  refine ⟨fun hdev => ?_, fun hweb hnone => ?_, fun v hv hg => ?_⟩
  · exact filenameParts_env_congr henv (envTokens_no_webgpu env (fun hc => hdev hc.2))
  · rcases s with ⟨p, mid, tk, md, dev, dt, bs, br, hd, e⟩
    cases hweb
    cases hnone
    unfold generateFilenameParts
    simp
  · exact filenameParts_env_congr henv (envTokens_google env hv hg)

/-- Witness for C10 at a concrete input: a web-platform setting with absent
device and GPU facts present, checked against the vendor-erased variant. -/
theorem C10_gpu_vendor_token_witness :
    generateFilenameParts
        { platform := .web, modelId := "m", task := "t", mode := .warm,
          environment := some { gpuVendor := some "NVIDIA Corporation" } } =
      generateFilenameParts
        { platform := .web, modelId := "m", task := "t", mode := .warm,
          environment := some { gpuVendor := none } } :=
  (C10_gpu_vendor_token
      { platform := .web, modelId := "m", task := "t", mode := .warm,
        environment := some { gpuVendor := some "NVIDIA Corporation" } }
      { gpuVendor := some "NVIDIA Corporation" } rfl).1 (by simp)

/-! ### Decimal rendering facts -/

/-- Numeric value recovered from a big-endian decimal digit list. -/
def ofDigits (l : List Char) : ℕ := l.foldl (fun a c => 10 * a + (c.toNat - 48)) 0

lemma digitChar_toNat {d : ℕ} (h : d < 10) : (digitChar d).toNat = 48 + d := by
  interval_cases d <;> decide

lemma digitChar_isDigit {d : ℕ} (h : d < 10) : (digitChar d).isDigit := by
  interval_cases d <;> decide

lemma ofDigits_append (l : List Char) (c : Char) :
    ofDigits (l ++ [c]) = 10 * ofDigits l + (c.toNat - 48) := by
  unfold ofDigits
  rw [List.foldl_append]
  rfl

lemma natDigits_ofDigits : ∀ fuel n, n < fuel → ofDigits (natDigits fuel n) = n
  | 0, _, h => absurd h (by omega)
  | fuel + 1, n, h => by
      unfold natDigits
      split_ifs with h10
      · unfold ofDigits
        simp [List.foldl, digitChar_toNat h10]
      · rw [ofDigits_append, natDigits_ofDigits fuel (n / 10) (by omega),
          digitChar_toNat (by omega)]
        omega

lemma natDigits_all_digit : ∀ fuel n, ∀ c ∈ natDigits fuel n, c.isDigit
  | 0, _, _, h => absurd h (List.not_mem_nil _)
  | fuel + 1, n, c, h => by
      unfold natDigits at h
      split_ifs at h with h10
      · rw [List.mem_singleton] at h
        exact h ▸ digitChar_isDigit h10
      · rcases List.mem_append.mp h with h1 | h2
        · exact natDigits_all_digit fuel (n / 10) c h1
        · rw [List.mem_singleton] at h2
          exact h2 ▸ digitChar_isDigit (by omega)

lemma natToString_inj {m n : ℕ} (h : natToString m = natToString n) : m = n := by
  have hd : natDigits (m + 1) m = natDigits (n + 1) n := congrArg String.data h
  have h1 := natDigits_ofDigits (m + 1) m (by omega)
  have h2 := natDigits_ofDigits (n + 1) n (by omega)
  rw [← h1, ← h2, hd]

lemma natToString_all_digit {n : ℕ} {c : Char} (h : c ∈ (natToString n).data) : c.isDigit :=
  natDigits_all_digit (n + 1) n c h

lemma intToString_of_pos {n : ℤ} (h : 1 ≤ n) : intToString n = natToString n.toNat :=
  if_neg (by omega)

/-! ### Separator-based decompositions -/

lemma append_sep_inj {α : Type} {c : α} :
    ∀ {a1 : List α} {a2 b1 b2 : List α},
      a1 ++ c :: b1 = a2 ++ c :: b2 → c ∉ a1 → c ∉ a2 → a1 = a2 ∧ b1 = b2 := by
  intro a1
  induction a1 with
  | nil =>
    intro a2 b1 b2 h h1 h2
    cases a2 with
    | nil => simpa using h
    | cons y ys =>
      rw [List.nil_append, List.cons_append, List.cons.injEq] at h
      exact absurd (h.1 ▸ List.mem_cons_self y ys) h2
  | cons x xs ih =>
    intro a2 b1 b2 h h1 h2
    cases a2 with
    | nil =>
      rw [List.nil_append, List.cons_append, List.cons.injEq] at h
      exact absurd (h.1 ▸ List.mem_cons_self x xs) h1
    | cons y ys =>
      rw [List.cons_append, List.cons_append, List.cons.injEq] at h
      obtain ⟨hxs, hb⟩ := ih h.2 (fun hm => h1 (List.mem_cons_of_mem _ hm))
        (fun hm => h2 (List.mem_cons_of_mem _ hm))
      exact ⟨by rw [h.1, hxs], hb⟩

lemma path_decomp {t1 t2 m1 m2 f1 f2 : List Char}
    (h : t1 ++ '/' :: (m1 ++ '/' :: f1) = t2 ++ '/' :: (m2 ++ '/' :: f2))
    (ht1 : '/' ∉ t1) (ht2 : '/' ∉ t2) (hf1 : '/' ∉ f1) (hf2 : '/' ∉ f2) :
    t1 = t2 ∧ m1 = m2 ∧ f1 = f2 := by
  obtain ⟨hts, h2⟩ := append_sep_inj h ht1 ht2
  have hr : f1.reverse ++ '/' :: m1.reverse = f2.reverse ++ '/' :: m2.reverse := by
    have hrev := congrArg List.reverse h2
    simpa [List.reverse_append] using hrev
  obtain ⟨hfr, hmr⟩ := append_sep_inj hr (by simpa using hf1) (by simpa using hf2)
  exact ⟨hts, List.reverse_injective hmr, List.reverse_injective hfr⟩

/-- Character-list form of `joinUnderscore`. -/
def joinU : List (List Char) → List Char
  | [] => []
  | [t] => t
  | t :: ts => t ++ '_' :: joinU ts

lemma joinUnderscore_data : ∀ l : List String,
    (joinUnderscore l).data = joinU (l.map String.data)
  | [] => rfl
  | [t] => rfl
  | t :: t2 :: ts => by
      show (t ++ "_" ++ joinUnderscore (t2 :: ts)).data = _
      rw [String.data_append, String.data_append, joinUnderscore_data (t2 :: ts),
        show joinU (List.map String.data (t :: t2 :: ts)) =
          t.data ++ '_' :: joinU (List.map String.data (t2 :: ts)) from rfl]
      simp

lemma joinU_not_mem {c : Char} (hc : c ≠ '_') :
    ∀ {p : List (List Char)}, (∀ t ∈ p, c ∉ t) → c ∉ joinU p := by
  intro p
  induction p with
  | nil => intro _ h; simp [joinU] at h
  | cons t ts ih =>
    intro hall hmem
    cases ts with
    | nil => exact hall t (List.mem_singleton.mpr rfl) (by simpa [joinU] using hmem)
    | cons t2 ts2 =>
      rw [show joinU (t :: t2 :: ts2) = t ++ '_' :: joinU (t2 :: ts2) from rfl] at hmem
      rcases List.mem_append.mp hmem with h1 | h2
      · exact hall t (List.mem_cons_self _ _) h1
      · rcases List.mem_cons.mp h2 with h3 | h4
        · exact hc h3
        · exact ih (fun u hu => hall u (List.mem_cons_of_mem _ hu)) h4

lemma joinU_inj : ∀ (p1 p2 : List (List Char)),
    (∀ t ∈ p1, t ≠ [] ∧ '_' ∉ t) → (∀ t ∈ p2, t ≠ [] ∧ '_' ∉ t) →
    joinU p1 = joinU p2 → p1 = p2
  | [], [], _, _, _ => rfl
  | [], t :: ts, _, h2, h => by
      cases ts with
      | nil =>
        rw [show joinU [] = [] from rfl, show joinU [t] = t from rfl] at h
        exact absurd h.symm (h2 t (List.mem_singleton.mpr rfl)).1
      | cons t2 ts2 =>
        rw [show joinU [] = [] from rfl,
          show joinU (t :: t2 :: ts2) = t ++ '_' :: joinU (t2 :: ts2) from rfl] at h
        exact absurd h.symm (List.append_ne_nil_of_right_ne_nil t (List.cons_ne_nil _ _))
  | t :: ts, [], h1, _, h => by
      cases ts with
      | nil =>
        rw [show joinU [] = [] from rfl, show joinU [t] = t from rfl] at h
        exact absurd h (h1 t (List.mem_singleton.mpr rfl)).1
      | cons t2 ts2 =>
        rw [show joinU [] = [] from rfl,
          show joinU (t :: t2 :: ts2) = t ++ '_' :: joinU (t2 :: ts2) from rfl] at h
        exact absurd h (List.append_ne_nil_of_right_ne_nil t (List.cons_ne_nil _ _))
  | [t1], [t2], _, _, h => by rw [show joinU [t1] = t1 from rfl, show joinU [t2] = t2 from rfl] at h; rw [h]
  | [t1], t2 :: t2b :: ts2, h1, h2, h => by
      rw [show joinU [t1] = t1 from rfl,
        show joinU (t2 :: t2b :: ts2) = t2 ++ '_' :: joinU (t2b :: ts2) from rfl] at h
      have : '_' ∈ t1 := h ▸ List.mem_append.mpr (Or.inr (List.mem_cons_self _ _))
      exact absurd this (h1 t1 (List.mem_singleton.mpr rfl)).2
  | t1 :: t1b :: ts1, [t2], h1, h2, h => by
      rw [show joinU [t2] = t2 from rfl,
        show joinU (t1 :: t1b :: ts1) = t1 ++ '_' :: joinU (t1b :: ts1) from rfl] at h
      have : '_' ∈ t2 := h ▸ List.mem_append.mpr (Or.inr (List.mem_cons_self _ _))
      exact absurd this (h2 t2 (List.mem_singleton.mpr rfl)).2
  | t1 :: t1b :: ts1, t2 :: t2b :: ts2, h1, h2, h => by
      rw [show joinU (t1 :: t1b :: ts1) = t1 ++ '_' :: joinU (t1b :: ts1) from rfl,
        show joinU (t2 :: t2b :: ts2) = t2 ++ '_' :: joinU (t2b :: ts2) from rfl] at h
      obtain ⟨hh, ht⟩ := append_sep_inj h (h1 t1 (List.mem_cons_self _ _)).2
        (h2 t2 (List.mem_cons_self _ _)).2
      have := joinU_inj (t1b :: ts1) (t2b :: ts2)
        (fun u hu => h1 u (List.mem_cons_of_mem _ hu))
        (fun u hu => h2 u (List.mem_cons_of_mem _ hu)) ht
      rw [hh, this]

/-! ### Token value sets and well-formedness -/

/-- Device tokens the codec's inverse recognises. -/
def knownDevices : List String := ["cpu", "webgpu", "wasm"]

/-- Data-type tokens the codec's inverse recognises. -/
def knownDtypes : List String := ["fp32", "fp16", "q8", "q4", "int8", "uint8", "bnb4", "q4f16"]

/-- Browser tokens the codec's inverse recognises. -/
def knownBrowsers : List String := ["chromium", "firefox", "webkit"]

/-- Settings whose free-form fields are drawn from the recognised token
sets, so that the derived path is parseable: slash-free task, known device,
dtype and browser tokens, positive batch size, and no environment facts. -/
structure ValidSettings (s : BenchmarkSettings) : Prop where
  task_ok : '/' ∉ s.task.data
  device_ok : ∀ d, s.device = some d → d ∈ knownDevices
  dtype_ok : ∀ d, s.dtype = some d → d ∈ knownDtypes
  batch_ok : ∀ n, s.batchSize = some n → 1 ≤ n
  browser_ok : ∀ b, s.browser = some b → b ∈ knownBrowsers
  env_ok : s.environment = none

lemma string_data_inj {a b : String} (h : a.data = b.data) : a = b := by
  cases a
  cases b
  cases h
  rfl

lemma digit_not_special {c : Char} (h : c.isDigit) : c ≠ '_' ∧ c ≠ '/' := by
  constructor <;> intro hc <;> rw [hc] at h <;> exact absurd h (by decide)

lemma bToken_data {n : ℤ} (hn : 1 ≤ n) :
    ("b" ++ intToString n).data = 'b' :: (natToString n.toNat).data := by
  rw [intToString_of_pos hn, String.data_append]
  rfl

lemma bToken_good {n : ℤ} (hn : 1 ≤ n) :
    ("b" ++ intToString n).data ≠ [] ∧ '_' ∉ ("b" ++ intToString n).data ∧
      '/' ∉ ("b" ++ intToString n).data := by
  rw [bToken_data hn]
  refine ⟨List.cons_ne_nil _ _, fun hmem => ?_, fun hmem => ?_⟩ <;>
    rcases List.mem_cons.mp hmem with hc | hc
  · exact absurd hc (by decide)
  · exact absurd rfl (digit_not_special (natToString_all_digit hc)).1
  · exact absurd hc (by decide)
  · exact absurd rfl (digit_not_special (natToString_all_digit hc)).2

lemma bToken_inj {n1 n2 : ℤ} (h1 : 1 ≤ n1) (h2 : 1 ≤ n2)
    (h : "b" ++ intToString n1 = "b" ++ intToString n2) : n1 = n2 := by
  have hd := congrArg String.data h
  rw [bToken_data h1, bToken_data h2, List.cons.injEq] at hd
  have := natToString_inj (string_data_inj hd.2)
  omega

lemma bToken_not_dtype {n : ℤ} (hn : 1 ≤ n) {d : String} (hd : d ∈ knownDtypes) :
    "b" ++ intToString n ≠ d := by
  intro heq
  have hdata := congrArg String.data heq
  rw [bToken_data hn] at hdata
  fin_cases hd <;> simp only [List.cons.injEq] at hdata <;>
    first
      | exact absurd hdata.1 (by decide)
      | · have hn' : 'n' ∈ (natToString n.toNat).data := by
            rw [hdata.2]
            exact List.mem_cons_self _ _
          exact absurd (natToString_all_digit hn') (by decide)

lemma browser_ne_headed {b : String} (hb : b ∈ knownBrowsers) : b ≠ "headed" := by
  fin_cases hb <;> decide

lemma platform_token_inj {p1 p2 : JsPlatform} (h : p1.token = p2.token) : p1 = p2 := by
  cases p1 <;> cases p2 <;> first | rfl | exact absurd h (by decide)

lemma mode_token_inj {m1 m2 : JsMode} (h : m1.token = m2.token) : m1 = m2 := by
  cases m1 <;> cases m2 <;> first | rfl | exact absurd h (by decide)

lemma browserHeaded_inj {br1 br2 : Option String} {hd1 hd2 : Bool}
    (h1 : ∀ b, br1 = some b → b ∈ knownBrowsers)
    (h2 : ∀ b, br2 = some b → b ∈ knownBrowsers)
    (h : br1.toList ++ (if hd1 then ["headed"] else []) =
      br2.toList ++ (if hd2 then ["headed"] else [])) :
    br1 = br2 ∧ hd1 = hd2 := by
  rcases br1 with _ | x1 <;> rcases br2 with _ | x2 <;> cases hd1 <;> cases hd2 <;>
    simp_all
  · exact absurd h.symm (browser_ne_headed h2)
  · exact absurd h1 (by decide)

lemma canonicalParts_inj {e1 e2 : EffectiveIdentity}
    (ht1 : ∀ d, e1.dtype = some d → d ∈ knownDtypes)
    (ht2 : ∀ d, e2.dtype = some d → d ∈ knownDtypes)
    (hb1 : 1 ≤ e1.batch) (hb2 : 1 ≤ e2.batch)
    (hbr1 : ∀ b, e1.browser = some b → b ∈ knownBrowsers)
    (hbr2 : ∀ b, e2.browser = some b → b ∈ knownBrowsers)
    (h : canonicalParts e1 = canonicalParts e2) :
    e1.platform = e2.platform ∧ e1.mode = e2.mode ∧ e1.device = e2.device ∧
      e1.dtype = e2.dtype ∧ e1.batch = e2.batch ∧ e1.browser = e2.browser ∧
      e1.headed = e2.headed := by
  obtain ⟨tk1, mid1, p1, md1, dv1, dt1, b1, br1, hd1⟩ := e1
  obtain ⟨tk2, mid2, p2, md2, dv2, dt2, b2, br2, hd2⟩ := e2
  simp only [canonicalParts, List.cons_append, List.nil_append, List.cons.injEq] at h
  dsimp only at ht1 ht2 hb1 hb2 hbr1 hbr2 ⊢
  obtain ⟨hp, hm, hdv, htail⟩ := h
  refine ⟨platform_token_inj hp, mode_token_inj hm, hdv, ?_⟩
  rcases dt1 with _ | d1 <;> rcases dt2 with _ | d2 <;>
    simp only [Option.toList, List.cons_append, List.nil_append, List.cons.injEq] at htail
  · obtain ⟨hb, htail2⟩ := htail
    obtain ⟨hbr, hhd⟩ := browserHeaded_inj hbr1 hbr2 htail2
    exact ⟨rfl, bToken_inj hb1 hb2 hb, hbr, hhd⟩
  · exact absurd htail.1 (bToken_not_dtype hb1 (ht2 d2 rfl))
  · exact absurd htail.1.symm (bToken_not_dtype hb2 (ht1 d1 rfl))
  · obtain ⟨hd, hb, htail2⟩ := htail
    obtain ⟨hbr, hhd⟩ := browserHeaded_inj hbr1 hbr2 htail2
    exact ⟨by rw [hd], bToken_inj hb1 hb2 hb, hbr, hhd⟩

lemma effDevice_known {s : BenchmarkSettings} (hv : ValidSettings s) :
    effDevice s ∈ knownDevices := by
  unfold effDevice
  rcases hd : s.device with _ | d
  · cases s.platform <;> simp [defaultDevice, knownDevices]
  · dsimp only
    split_ifs
    · cases s.platform <;> simp [defaultDevice, knownDevices]
    · exact hv.device_ok d hd

lemma effDtype_known {s : BenchmarkSettings} (hv : ValidSettings s) :
    ∀ d, effDtype s = some d → d ∈ knownDtypes := by
  intro d h
  unfold effDtype at h
  rcases hd : s.dtype with _ | d0 <;> rw [hd] at h
  · exact absurd h (by simp)
  · dsimp only at h
    by_cases hc : d0 = ""
    · rw [if_pos hc] at h
      exact absurd h (by simp)
    · rw [if_neg hc] at h
      exact Option.some.inj h ▸ hv.dtype_ok d0 hd

lemma effBatch_pos {s : BenchmarkSettings} (hv : ValidSettings s) : 1 ≤ effBatch s := by
  unfold effBatch
  rcases hb : s.batchSize with _ | n
  · norm_num
  · dsimp only
    split_ifs
    · norm_num
    · have := hv.batch_ok n hb
      omega

lemma effBrowser_known {s : BenchmarkSettings} (hv : ValidSettings s) :
    ∀ b, effBrowser s = some b → b ∈ knownBrowsers := by
  intro b h
  unfold effBrowser at h
  split_ifs at h
  rcases hb : s.browser with _ | b0 <;> rw [hb] at h
  · exact absurd h (by simp)
  · dsimp only at h
    by_cases hc : b0 = ""
    · rw [if_pos hc] at h
      exact absurd h (by simp)
    · rw [if_neg hc] at h
      exact Option.some.inj h ▸ hv.browser_ok b0 hb

lemma canonicalParts_good {s : BenchmarkSettings} (hv : ValidSettings s) :
    ∀ t ∈ canonicalParts (effectiveIdentity s),
      t.data ≠ [] ∧ '_' ∉ t.data ∧ '/' ∉ t.data := by
  intro t ht
  simp only [canonicalParts, effectiveIdentity] at ht
  rcases List.mem_append.mp ht with h1 | hIte
  rcases List.mem_append.mp h1 with h2 | hBr
  rcases List.mem_append.mp h2 with h3 | hBt
  rcases List.mem_append.mp h3 with hABC | hDt
  · simp only [List.mem_cons, List.not_mem_nil, or_false] at hABC
    rcases hABC with rfl | rfl | rfl
    · cases s.platform <;> exact ⟨by decide, by decide, by decide⟩
    · cases s.mode <;> exact ⟨by decide, by decide, by decide⟩
    · have hdev := effDevice_known hv
      simp only [knownDevices, List.mem_cons, List.not_mem_nil, or_false] at hdev
      rcases hdev with h | h | h <;> rw [h] <;> exact ⟨by decide, by decide, by decide⟩
  · rcases hd : effDtype s with _ | d0 <;> rw [hd] at hDt
    · exact absurd hDt (by simp)
    · have h0 : t = d0 := by simpa using hDt
      rw [h0]
      have hmem := effDtype_known hv d0 hd
      fin_cases hmem <;> exact ⟨by decide, by decide, by decide⟩
  · have h0 : t = "b" ++ intToString (effBatch s) := by simpa using hBt
    rw [h0]
    obtain ⟨g1, g2, g3⟩ := bToken_good (effBatch_pos hv)
    exact ⟨g1, g2, g3⟩
  · rcases hb : effBrowser s with _ | b0 <;> rw [hb] at hBr
    · exact absurd hBr (by simp)
    · have h0 : t = b0 := by simpa using hBr
      rw [h0]
      have hmem := effBrowser_known hv b0 hb
      fin_cases hmem <;> exact ⟨by decide, by decide, by decide⟩
  · by_cases hh : effHeaded s
    · rw [if_pos hh] at hIte
      have h0 : t = "headed" := by simpa using hIte
      rw [h0]
      exact ⟨by decide, by decide, by decide⟩
    · rw [if_neg hh] at hIte
      exact absurd hIte (by simp)

lemma effIdentity_ext {e1 e2 : EffectiveIdentity}
    (h1 : e1.task = e2.task) (h2 : e1.modelId = e2.modelId)
    (h3 : e1.platform = e2.platform) (h4 : e1.mode = e2.mode)
    (h5 : e1.device = e2.device) (h6 : e1.dtype = e2.dtype)
    (h7 : e1.batch = e2.batch) (h8 : e1.browser = e2.browser)
    (h9 : e1.headed = e2.headed) : e1 = e2 := by
  cases e1
  cases e2
  simp_all

lemma filename_data_no_slash {s : BenchmarkSettings} (hv : ValidSettings s) :
    '/' ∉ (joinUnderscore (generateFilenameParts s)).data ++ (".jsonl" : String).data := by
  intro hmem
  rcases List.mem_append.mp hmem with h1 | h2
  · rw [filenameParts_canonical s hv.env_ok, joinUnderscore_data] at h1
    refine joinU_not_mem (by decide) (fun u hu => ?_) h1
    obtain ⟨w, hw, rfl⟩ := List.mem_map.mp hu
    exact (canonicalParts_good hv w hw).2.2
  · exact absurd h2 (by decide)

/-- Claim C2 (amended): for configurations carrying no environment facts,
agreement of all effective identity fields (task, model, platform, mode,
device after target-specific defaulting, truthy data-type, batch size after
`|| 1` defaulting, truthy browser and headed flag on the web platform)
always produces the identical path; and for valid configurations (slash-free
task, device/dtype/browser drawn from the codec's recognised token sets,
positive batch sizes) the converse holds as well, so the derived path
characterises exactly the effective identity.  The unrestricted claim is
false: batch sizes 0 and 1 differ but collide (see the counterexample). -/
theorem C2_amended_path_identity (s1 s2 : BenchmarkSettings)
    (he1 : s1.environment = none) (he2 : s2.environment = none) :
    (effectiveIdentity s1 = effectiveIdentity s2 →
        generateBenchmarkPath s1 = generateBenchmarkPath s2) ∧
    (ValidSettings s1 → ValidSettings s2 →
        generateBenchmarkPath s1 = generateBenchmarkPath s2 →
        effectiveIdentity s1 = effectiveIdentity s2) := by
  constructor
  · intro h
    have htask : s1.task = s2.task := congrArg EffectiveIdentity.task h
    have hmid : s1.modelId = s2.modelId := congrArg EffectiveIdentity.modelId h
    have hparts : generateFilenameParts s1 = generateFilenameParts s2 := by
      rw [filenameParts_canonical s1 he1, filenameParts_canonical s2 he2, h]
    unfold generateBenchmarkPath
    rw [htask, hmid, hparts]
  · intro hv1 hv2 hpath
    have hfull : (generateBenchmarkPath s1).fullPath = (generateBenchmarkPath s2).fullPath := by
      rw [hpath]
    have hdata := congrArg String.data hfull
    simp only [generateBenchmarkPath, String.data_append] at hdata
    simp only [List.append_assoc, List.singleton_append] at hdata
    obtain ⟨hT, hM, hF⟩ := path_decomp hdata hv1.task_ok hv2.task_ok
      (filename_data_no_slash hv1) (filename_data_no_slash hv2)
    have hjoin : (joinUnderscore (generateFilenameParts s1)).data =
        (joinUnderscore (generateFilenameParts s2)).data :=
      List.append_cancel_right hF
    rw [joinUnderscore_data, joinUnderscore_data] at hjoin
    have hmaps := joinU_inj _ _
      (fun u hu => by
        obtain ⟨w, hw, rfl⟩ := List.mem_map.mp hu
        rw [filenameParts_canonical s1 hv1.env_ok] at hw
        exact ⟨(canonicalParts_good hv1 w hw).1, (canonicalParts_good hv1 w hw).2.1⟩)
      (fun u hu => by
        obtain ⟨w, hw, rfl⟩ := List.mem_map.mp hu
        rw [filenameParts_canonical s2 hv2.env_ok] at hw
        exact ⟨(canonicalParts_good hv2 w hw).1, (canonicalParts_good hv2 w hw).2.1⟩)
      hjoin
    have hparts : generateFilenameParts s1 = generateFilenameParts s2 :=
      List.map_injective_iff.mpr (fun a b hab => string_data_inj hab) hmaps
    rw [filenameParts_canonical s1 hv1.env_ok, filenameParts_canonical s2 hv2.env_ok] at hparts
    obtain ⟨hp, hm, hdv, hdt, hb, hbr, hhd⟩ := canonicalParts_inj
      (effDtype_known hv1) (effDtype_known hv2) (effBatch_pos hv1) (effBatch_pos hv2)
      (effBrowser_known hv1) (effBrowser_known hv2) hparts
    exact effIdentity_ext (string_data_inj hT) (string_data_inj hM) hp hm hdv hdt hb hbr hhd

/-- Claim C2 (counterexample): the configurations below differ in the
required batch-size field (0 versus 1) yet map to the identical path
(`t/m/node_warm_cpu_b1.jsonl`), because the code's `batchSize || 1` treats
the value 0 as absent. -/
theorem C2_counterexample :
    (some (0 : ℤ) : Option ℤ) ≠ some 1 ∧
      generateBenchmarkPath
          { platform := .node, modelId := "m", task := "t", mode := .warm,
            batchSize := some 0 } =
        generateBenchmarkPath
          { platform := .node, modelId := "m", task := "t", mode := .warm,
            batchSize := some 1 } := by
  exact ⟨by decide, rfl⟩

/-- Witness for C2 at concrete inputs: a node configuration with the device
omitted and one with the device explicitly `"cpu"` have equal effective
identities and equal paths. -/
theorem C2_amended_path_identity_witness :
    (effectiveIdentity { platform := .node, modelId := "m", task := "t", mode := .warm } =
        effectiveIdentity
          { platform := .node, modelId := "m", task := "t", mode := .warm,
            device := some "cpu" } →
      generateBenchmarkPath { platform := .node, modelId := "m", task := "t", mode := .warm } =
        generateBenchmarkPath
          { platform := .node, modelId := "m", task := "t", mode := .warm,
            device := some "cpu" }) ∧
    (ValidSettings { platform := .node, modelId := "m", task := "t", mode := .warm } →
      ValidSettings
        { platform := .node, modelId := "m", task := "t", mode := .warm,
          device := some "cpu" } →
      generateBenchmarkPath { platform := .node, modelId := "m", task := "t", mode := .warm } =
        generateBenchmarkPath
          { platform := .node, modelId := "m", task := "t", mode := .warm,
            device := some "cpu" } →
      effectiveIdentity { platform := .node, modelId := "m", task := "t", mode := .warm } =
        effectiveIdentity
          { platform := .node, modelId := "m", task := "t", mode := .warm,
            device := some "cpu" }) :=
  C2_amended_path_identity _ _ rfl rfl

/-! ### The best-effort inverse `parseBenchmarkId` -/

/-- Partial settings recovered by the inverse codec. -/
structure ParsedSettings where
  platform : Option JsPlatform := none
  modelId : Option String := none
  task : Option String := none
  mode : Option JsMode := none
  device : Option String := none
  dtype : Option String := none
  batchSize : Option ℤ := none
  browser : Option String := none
  headed : Option Bool := none
deriving DecidableEq, Repr

/-- Model of `parseInt(s, 10)`: skip leading whitespace, optional sign, then
a non-empty decimal digit run; `none` models `NaN`. -/
def jsParseInt (s : String) : Option ℤ :=
  let t := s.data.dropWhile isJsSpace
  match t with
  | '-' :: rest =>
      let ds := rest.takeWhile Char.isDigit
      if ds.isEmpty then none else some (-(ofDigits ds : ℤ))
  | '+' :: rest =>
      let ds := rest.takeWhile Char.isDigit
      if ds.isEmpty then none else some ((ofDigits ds : ℤ))
  | _ =>
      let ds := t.takeWhile Char.isDigit
      if ds.isEmpty then none else some ((ofDigits ds : ℤ))

/-- The seven recognisable filename fields, in the fixed recovery order. -/
inductive FieldKind where
  | platform
  | mode
  | device
  | dtype
  | batch
  | browser
  | headed
deriving DecidableEq, Repr

/-- Whether a token is recognised by a field's known value set (the guard of
the corresponding `if` in `parseBenchmarkId`). -/
def fieldCond : FieldKind → String → Bool
  | .platform, tok => decide (tok = "node") || decide (tok = "web")
  | .mode, tok => decide (tok = "warm") || decide (tok = "cold")
  | .device, tok => decide (tok ∈ knownDevices)
  | .dtype, tok => decide (tok ∈ knownDtypes)
  | .batch, tok =>
      match tok.data with
      | 'b' :: rest => (jsParseInt ⟨rest⟩).isSome
      | _ => false
  | .browser, tok => decide (tok ∈ knownBrowsers)
  | .headed, tok => decide (tok = "headed")

/-- The assignment a recognised token makes (the body of the corresponding
`if`). -/
def fieldApp : FieldKind → String → ParsedSettings → ParsedSettings
  | .platform, tok, st =>
      { st with platform := if tok = "node" then some .node else some .web }
  | .mode, tok, st => { st with mode := if tok = "warm" then some .warm else some .cold }
  | .device, tok, st => { st with device := some tok }
  | .dtype, tok, st => { st with dtype := some tok }
  | .batch, tok, st => { st with batchSize := jsParseInt ⟨tok.data.drop 1⟩ }
  | .browser, tok, st => { st with browser := some tok }
  | .headed, _, st => { st with headed := some true }

/-- One `if (idx < parts.length && cond(parts[idx])) { apply; idx++ }` step
of the source, with the token suffix from `idx` made explicit. -/
def tryStep (cond : String → Bool) (app : String → ParsedSettings → ParsedSettings) :
    ParsedSettings × List String → ParsedSettings × List String
  | (st, []) => (st, [])
  | (st, tok :: rest) => if cond tok then (app tok st, rest) else (st, tok :: rest)

/-- The source's fixed sequence of field matchers. -/
def fieldOrder : List FieldKind :=
  [.platform, .mode, .device, .dtype, .batch, .browser, .headed]

/-- The chain of seven sequential matcher `if`s of `parseBenchmarkId`. -/
def scanFields : List FieldKind → ParsedSettings × List String → ParsedSettings × List String
  | [], acc => acc
  | f :: fs, acc => scanFields fs (tryStep (fieldCond f) (fieldApp f) acc)

/-- JavaScript `Array.prototype.join("/")`. -/
def joinSlash : List String → String
  | [] => ""
  | [t] => t
  | t :: ts => t ++ "/" ++ joinSlash ts

/-- Embedding of `parseBenchmarkId` from `benchmark-id.ts`.  The source's
substring arithmetic (`pathParts[0]`, the span between the first and last
slash, the span after the last slash) is expressed on the slash-split list:
head, middle segments rejoined with `/`, and last segment. -/
def parseBenchmarkId (id : String) : ParsedSettings :=
  let pathParts := (splitOnChar '/' id.data).map (fun l => (⟨l⟩ : String))
  if pathParts.length < 4 then {}
  else
    let task := pathParts.headD ""
    let modelId := joinSlash (pathParts.drop 1 |>.dropLast)
    let filenamePart := pathParts.getLastD ""
    let parts := (splitOnChar '_' filenamePart.data).map (fun l => (⟨l⟩ : String))
    let st : ParsedSettings := { task := some task, modelId := some modelId }
    if parts.length < 3 then st else (scanFields fieldOrder (st, parts)).1

/-- First field in the list whose value set recognises the token, together
with the fields after it. -/
def findField : List FieldKind → String → Option (FieldKind × List FieldKind)
  | [], _ => none
  | f :: fs, tok => if fieldCond f tok then some (f, fs) else findField fs tok

/-- Ordered field recovery as the specification words it: check each
filename token against the remaining fields' value sets in the fixed order,
assign it to the first field that recognises it, and stop at the first
token recognised by no remaining field. -/
def recoverFields : List FieldKind → List String → ParsedSettings → ParsedSettings
  | _, [], st => st
  | fields, tok :: toks, st =>
      match findField fields tok with
      | none => st
      | some (f, rest) => recoverFields rest toks (fieldApp f tok st)

/-- Declarative description of the whole inverse, built from the spec's
wording over the same guards the source applies. -/
def specParse (id : String) : ParsedSettings :=
  let pathParts := (splitOnChar '/' id.data).map (fun l => (⟨l⟩ : String))
  if pathParts.length < 4 then {}
  else
    let task := pathParts.headD ""
    let modelId := joinSlash (pathParts.drop 1 |>.dropLast)
    let filenamePart := pathParts.getLastD ""
    let parts := (splitOnChar '_' filenamePart.data).map (fun l => (⟨l⟩ : String))
    let st : ParsedSettings := { task := some task, modelId := some modelId }
    if parts.length < 3 then st else recoverFields fieldOrder parts st

lemma scanFields_eq_recover :
    ∀ (fs : List FieldKind) (toks : List String) (st : ParsedSettings),
      (scanFields fs (st, toks)).1 = recoverFields fs toks st := by
  intro fs
  induction fs with
  | nil =>
    intro toks st
    cases toks <;> simp [scanFields, recoverFields, findField]
  | cons f fs ih =>
    intro toks st
    cases toks with
    | nil => simp [scanFields, tryStep, recoverFields, ih]
    | cons tok toks2 =>
      by_cases hc : fieldCond f tok
      · simp [scanFields, tryStep, hc, recoverFields, findField, ih]
      · simp [scanFields, tryStep, hc, recoverFields, findField, ih]

/-- Claim C9 (counterexample): on the input `"a/b/c/node_warm"` the inverse
returns no platform at all — the source bails out whenever the filename has
fewer than three underscore tokens — although the claimed in-order matching
process positively identifies the platform (and mode) from those tokens. -/
theorem C9_counterexample :
    (parseBenchmarkId "a/b/c/node_warm").platform = none ∧
      (recoverFields fieldOrder ["node", "warm"]
          { task := some "a", modelId := some "b/c" }).platform = some .node := by
  constructor <;> rfl

/-- Claim C9 (amended): `parseBenchmarkId` is total (the embedding is a
plain function — the source's splits, substrings, and `parseInt` cannot
throw), and on paths with at least four slash-separated segments whose
filename has at least three underscore tokens it returns exactly the fields
recovered by checking each filename token against each remaining field's
known value set in the fixed order and stopping at the first token
recognised by no remaining field; paths with fewer segments return only the
task/model prefix (or nothing at all below four segments). -/
theorem C9_parse_best_effort (id : String) : parseBenchmarkId id = specParse id := by
  unfold parseBenchmarkId specParse
  dsimp only
  rw [scanFields_eq_recover]

/-! ### JSON model (`JSON.parse` and object-property truthiness)

`extractJsonResult` in `src/bench/src/server/queue.ts` relies on the
runtime's `JSON.parse`.  The standard JSON grammar is modelled below with a
fuel-bounded recursive-descent reader of `List Char` (fuel larger than the
input length suffices, since every recursive call first consumes at least
one character).  Numbers become rationals; a `\uXXXX` escape becomes the
corresponding scalar (`Char.ofNat`). -/

/-- A parsed JSON value.  Object members keep their textual order; duplicate
keys are preserved, with property lookup taking the last occurrence, as
`JSON.parse` does. -/
inductive JsonVal where
  | null
  | bool (b : Bool)
  | num (q : ℚ)
  | str (s : String)
  | arr (elems : List JsonVal)
  | obj (members : List (String × JsonVal))
deriving Repr

/-- JSON insignificant whitespace (space, tab, line feed, carriage return). -/
def jsonWs (c : Char) : Bool := c = ' ' || c = '\t' || c = '\n' || c = '\r'

/-- Drop JSON whitespace. -/
def skipJsonWs (l : List Char) : List Char := l.dropWhile jsonWs

/-- Value of a hexadecimal digit. -/
def hexVal (c : Char) : Option ℕ :=
  if '0' ≤ c ∧ c ≤ '9' then some (c.toNat - 48)
  else if 'a' ≤ c ∧ c ≤ 'f' then some (c.toNat - 87)
  else if 'A' ≤ c ∧ c ≤ 'F' then some (c.toNat - 55)
  else none

/-- Single-character JSON string escapes. -/
def escChar : Char → Option Char
  | '"' => some '"'
  | '\\' => some '\\'
  | '/' => some '/'
  | 'b' => some (Char.ofNat 8)
  | 'f' => some (Char.ofNat 12)
  | 'n' => some '\n'
  | 'r' => some '\r'
  | 't' => some '\t'
  | _ => none

/-- Read the body of a JSON string after the opening quote; returns the
decoded characters and the remainder after the closing quote. -/
def parseStrChars : ℕ → List Char → Option (List Char × List Char)
  | 0, _ => none
  | _ + 1, [] => none
  | fuel + 1, c :: rest =>
    if c = '"' then some ([], rest)
    else if c = '\\' then
      match rest with
      | [] => none
      | e :: rest2 =>
        if e = 'u' then
          match rest2 with
          | h1 :: h2 :: h3 :: h4 :: rest3 =>
            match hexVal h1, hexVal h2, hexVal h3, hexVal h4 with
            | some a, some b, some c2, some d =>
              match parseStrChars fuel rest3 with
              | some (out, rem) =>
                  some (Char.ofNat (((a * 16 + b) * 16 + c2) * 16 + d) :: out, rem)
              | none => none
            | _, _, _, _ => none
          | _ => none
        else
          match escChar e with
          | some ec =>
            match parseStrChars fuel rest2 with
            | some (out, rem) => some (ec :: out, rem)
            | none => none
          | none => none
    else if c.toNat < 32 then none
    else
      match parseStrChars fuel rest with
      | some (out, rem) => some (c :: out, rem)
      | none => none

/-- Read a JSON number: `-?(0|[1-9][0-9]*)(\.[0-9]+)?([eE][+-]?[0-9]+)?`. -/
def parseJsonNumber (l : List Char) : Option (ℚ × List Char) :=
  let signed : Bool × List Char :=
    match l with
    | '-' :: rest => (true, rest)
    | _ => (false, l)
  let neg := signed.1
  let l1 := signed.2
  let intDs := l1.takeWhile Char.isDigit
  if intDs.isEmpty then none
  else if 1 < intDs.length ∧ intDs.headD '0' = '0' then none
  else
    let l2 := l1.dropWhile Char.isDigit
    let fracRead : Option (List Char × List Char) :=
      match l2 with
      | '.' :: rest =>
          let fs := rest.takeWhile Char.isDigit
          if fs.isEmpty then none else some (fs, rest.dropWhile Char.isDigit)
      | _ => some ([], l2)
    match fracRead with
    | none => none
    | some (fracDs, l3) =>
      let expRead : Option (Bool × List Char × List Char) :=
        match l3 with
        | 'e' :: rest | 'E' :: rest =>
            let signedE : Bool × List Char :=
              match rest with
              | '-' :: r2 => (true, r2)
              | '+' :: r2 => (false, r2)
              | _ => (false, rest)
            let es := signedE.2.takeWhile Char.isDigit
            if es.isEmpty then none
            else some (signedE.1, es, signedE.2.dropWhile Char.isDigit)
        | _ => some (false, [], l3)
      match expRead with
      | none => none
      | some (negE, expDs, l4) =>
        let mantissa : ℚ :=
          (ofDigits intDs : ℚ) + (ofDigits fracDs : ℚ) / (10 : ℚ) ^ fracDs.length
        let expo : ℤ := if negE then -(ofDigits expDs : ℤ) else (ofDigits expDs : ℤ)
        let value : ℚ := mantissa * (10 : ℚ) ^ expo
        some (if neg then -value else value, l4)

mutual

/-- Read one JSON value (leading whitespace allowed). -/
def parseJsonVal : ℕ → List Char → Option (JsonVal × List Char)
  | 0, _ => none
  | fuel + 1, l =>
    match skipJsonWs l with
    | [] => none
    | '{' :: rest =>
        (match skipJsonWs rest with
         | '}' :: rem => some (.obj [], rem)
         | rest2 =>
             match parseJsonMembers fuel rest2 with
             | some (ms, rem) => some (.obj ms, rem)
             | none => none)
    | '[' :: rest =>
        (match skipJsonWs rest with
         | ']' :: rem => some (.arr [], rem)
         | rest2 =>
             match parseJsonElems fuel rest2 with
             | some (xs, rem) => some (.arr xs, rem)
             | none => none)
    | '"' :: rest =>
        (match parseStrChars fuel rest with
         | some (cs, rem) => some (.str ⟨cs⟩, rem)
         | none => none)
    | 't' :: 'r' :: 'u' :: 'e' :: rem => some (.bool true, rem)
    | 'f' :: 'a' :: 'l' :: 's' :: 'e' :: rem => some (.bool false, rem)
    | 'n' :: 'u' :: 'l' :: 'l' :: rem => some (.null, rem)
    | l2 =>
        (match parseJsonNumber l2 with
         | some (q, rem) => some (.num q, rem)
         | none => none)

/-- Read the members of an object after its first non-whitespace character
(which must start a key string). -/
def parseJsonMembers : ℕ → List Char → Option (List (String × JsonVal) × List Char)
  | 0, _ => none
  | fuel + 1, l =>
    match l with
    | '"' :: rest =>
      (match parseStrChars fuel rest with
       | none => none
       | some (key, rem1) =>
         match skipJsonWs rem1 with
         | ':' :: rem2 =>
           (match parseJsonVal fuel rem2 with
            | none => none
            | some (v, rem3) =>
              match skipJsonWs rem3 with
              | ',' :: rem4 =>
                  (match parseJsonMembers fuel (skipJsonWs rem4) with
                   | some (ms, rem5) => some ((⟨key⟩, v) :: ms, rem5)
                   | none => none)
              | '}' :: rem4 => some ([(⟨key⟩, v)], rem4)
              | _ => none)
         | _ => none)
    | _ => none

/-- Read the elements of a non-empty array. -/
def parseJsonElems : ℕ → List Char → Option (List JsonVal × List Char)
  | 0, _ => none
  | fuel + 1, l =>
    match parseJsonVal fuel l with
    | none => none
    | some (v, rem) =>
      match skipJsonWs rem with
      | ',' :: rem2 =>
          (match parseJsonElems fuel rem2 with
           | some (xs, r) => some (v :: xs, r)
           | none => none)
      | ']' :: rem2 => some ([v], rem2)
      | _ => none

end

/-- Model of `JSON.parse`: one JSON value with only whitespace around it. -/
def parseJson (s : String) : Option JsonVal :=
  match parseJsonVal (s.data.length + 1) s.data with
  | some (v, rem) => if (skipJsonWs rem).isEmpty then some v else none
  | none => none

/-! ### `extractJsonResult` (`queue.ts`) -/

/-- JavaScript property access on a parsed object: the last duplicate key
wins, anything that is not an object yields `undefined` (here `none`). -/
def lookupLast (ms : List (String × JsonVal)) (k : String) : Option JsonVal :=
  ms.foldl (fun acc m => if m.1 = k then some m.2 else acc) none

/-- JavaScript truthiness of a JSON value (`null`, `false`, `0` and `""` are
falsy; objects and arrays are truthy). -/
def jsTruthyJson : JsonVal → Bool
  | .null => false
  | .bool b => b
  | .num q => decide (¬ q = 0)
  | .str s => decide (¬ s = "")
  | .arr _ => true
  | .obj _ => true

/-- The `parsed.platform` truthiness test of `extractJsonResult`. -/
def hasTruthyPlatform (v : JsonVal) : Bool :=
  match v with
  | .obj ms =>
      match lookupLast ms "platform" with
      | some pv => jsTruthyJson pv
      | none => false
  | _ => false

/-- Does `hay` start with `sub`? -/
def startsWithList : List Char → List Char → Bool
  | _, [] => true
  | [], _ :: _ => false
  | h :: hs, n :: ns => h = n && startsWithList hs ns

/-- JavaScript `String.prototype.includes` on character lists. -/
def hasSub : List Char → List Char → Bool
  | [], sub => sub.isEmpty
  | h :: hs, sub => startsWithList (h :: hs) sub || hasSub hs sub

/-- JavaScript `String.prototype.trim` (ASCII whitespace). -/
def jsTrim (s : String) : String :=
  ⟨((s.data.dropWhile isJsSpace).reverse.dropWhile isJsSpace).reverse⟩

/-- The marker substring `"platform"` (quotes included) that the line scan
looks for. -/
def markerData : List Char := "\"platform\"".data

/-- Accept one stdout line (the body of the backward loop of
`extractJsonResult`): trim; require a leading `{` and the marker substring;
parse; require a truthy `platform` property. -/
def lineCandidate (line : List Char) : Option JsonVal :=
  let tr := jsTrim ⟨line⟩
  if (match tr.data with | '{' :: _ => true | _ => false) && hasSub tr.data markerData then
    match parseJson tr with
    | some v => if hasTruthyPlatform v then some v else none
    | none => none
  else none

/-- Accept one regex match of the fallback scan: require the marker
substring; parse; require a truthy `platform` property. -/
def matchCandidate (m : List Char) : Option JsonVal :=
  if hasSub m markerData then
    match parseJson ⟨m⟩ with
    | some v => if hasTruthyPlatform v then some v else none
    | none => none
  else none

/-- Backward scan: the source iterates `i` from the end towards the start
and returns the first acceptable candidate, so later entries take
precedence. -/
def scanBack (f : List Char → Option JsonVal) : List (List Char) → Option JsonVal
  | [] => none
  | l :: ls =>
    match scanBack f ls with
    | some v => some v
    | none => f l

/-- The tail `(?:\{[^{}]*\}[^{}]*)*\}` of the fallback regex, applied after
the opening brace and first non-brace run: greedy, deterministic because
`[^{}]` can never absorb a brace.  Returns the consumed characters and the
remainder. -/
def braceTail : ℕ → List Char → Option (List Char × List Char)
  | 0, _ => none
  | fuel + 1, l =>
    match l with
    | '}' :: rest => some (['}'], rest)
    | '{' :: rest =>
      let run := rest.takeWhile (fun c => !(c = '{' || c = '}'))
      let l2 := rest.dropWhile (fun c => !(c = '{' || c = '}'))
      (match l2 with
       | '}' :: rest2 =>
         let run2 := rest2.takeWhile (fun c => !(c = '{' || c = '}'))
         let l3 := rest2.dropWhile (fun c => !(c = '{' || c = '}'))
         match braceTail fuel l3 with
         | some (consumed, rem) => some ('{' :: run ++ '}' :: run2 ++ consumed, rem)
         | none => none
       | _ => none)
    | _ => none

/-- One attempt of the fallback regex `\{[^{}]*(?:\{[^{}]*\}[^{}]*)*\}` at a
fixed position. -/
def braceMatchAt (l : List Char) : Option (List Char × List Char) :=
  match l with
  | '{' :: rest =>
    let run := rest.takeWhile (fun c => !(c = '{' || c = '}'))
    let l2 := rest.dropWhile (fun c => !(c = '{' || c = '}'))
    (match braceTail (l2.length + 1) l2 with
     | some (consumed, rem) => some ('{' :: run ++ consumed, rem)
     | none => none)
  | _ => none

/-- All matches of the fallback regex with the `g` flag: try each position
left to right, resuming after the end of every match. -/
def allBraceMatches : ℕ → List Char → List (List Char)
  | 0, _ => []
  | _, [] => []
  | fuel + 1, c :: rest =>
    match braceMatchAt (c :: rest) with
    | some (m, rem) => m :: allBraceMatches fuel rem
    | none => allBraceMatches fuel rest

/-- Embedding of `BenchmarkQueue.extractJsonResult`: scan lines from the end
backward, then fall back to the bracket-balanced whole-stream regex scan,
also from the end backward; `none` models the `null` return. -/
def extractJsonResult (stdout : String) : Option JsonVal :=
  let lines := splitOnChar '\n' stdout.data
  match scanBack lineCandidate lines with
  | some v => some v
  | none => scanBack matchCandidate (allBraceMatches (stdout.data.length + 1) stdout.data)

/-- Declarative form written from the spec's words: the result is the
parsed object of the *last* line that qualifies; if no line qualifies, the
*last* qualifying whole-stream brace match; otherwise nothing. -/
def specExtract (stdout : String) : Option JsonVal :=
  let lines := splitOnChar '\n' stdout.data
  match lines.reverse.findSome? lineCandidate with
  | some v => some v
  | none =>
      (allBraceMatches (stdout.data.length + 1) stdout.data).reverse.findSome? matchCandidate

lemma findSome?_append {α β : Type} (l1 l2 : List α) (f : α → Option β) :
    (l1 ++ l2).findSome? f =
      match l1.findSome? f with
      | some v => some v
      | none => l2.findSome? f := by
  induction l1 with
  | nil => simp [List.findSome?]
  | cons a l1 ih =>
    rw [List.cons_append, List.findSome?_cons, List.findSome?_cons]
    cases f a <;> simp [ih]

lemma scanBack_eq_findSome? (f : List Char → Option JsonVal) :
    ∀ ls : List (List Char), scanBack f ls = ls.reverse.findSome? f := by
  intro ls
  induction ls with
  | nil => rfl
  | cons l ls ih =>
    rw [show scanBack f (l :: ls) =
        (match scanBack f ls with | some v => some v | none => f l) from rfl,
      ih, List.reverse_cons, findSome?_append]
    cases ls.reverse.findSome? f
    · simp [List.findSome?]
      cases f l <;> rfl
    · simp [List.findSome?]

/-- Claim C3 (counterexample): for the single-line stdout
`{"platform":""}` the line starts with `{`, contains the marker substring,
parses as JSON, and the parsed value contains the marker key — yet
extraction returns nothing, because the source additionally requires the
`platform` value to be *truthy* and the empty string is falsy. -/
theorem C3_counterexample :
    extractJsonResult "\x7b\"platform\":\"\"\x7d" = none ∧
      parseJson "\x7b\"platform\":\"\"\x7d" = some (.obj [("platform", .str "")]) :=
  ⟨rfl, rfl⟩

/-- Claim C3 (amended): on clean exit the extraction returns the parsed
object of the last stdout line whose trimmed form starts with `{`, contains
the marker substring, parses as JSON, and whose `platform` member is
*truthy*; if no line qualifies, the last qualifying match of the
bracket-balanced whole-stream scan is taken, with the same truthy-marker
requirement.  In particular, for a three-line stdout where only the last
line carries the marker key, the last line's parsed object is returned. -/
theorem C3_extraction_last_marked :
    (∀ stdout : String, extractJsonResult stdout = specExtract stdout) ∧
      extractJsonResult "\x7b\"a\":\"x\"\x7d\n\x7b\"b\":\"y\"\x7d\n\x7b\"platform\":\"node\"\x7d" =
        some (.obj [("platform", .str "node")]) := by
  constructor
  · intro s
    unfold extractJsonResult specExtract
    dsimp only
    rw [scanBack_eq_findSome? lineCandidate, scanBack_eq_findSome? matchCandidate]
  · rfl

/-! ### The job queue (`BenchmarkQueue`, `queue.ts`)

The queue is event-loop code; it is embedded as a labelled transition
system.  Each transition is the synchronous burst the Node event loop runs
without interleaving:

* `add` — `addBenchmark`: append a `pending` record, emit `added`, and run
  `processQueue` up to its first `await` (which may mark the oldest pending
  record `running` and emit `started`);
* `finish` — the continuation after `runBenchmark` settles: mark the record
  terminal, emit `completed`/`failed`, clear `isProcessing` (the `finally`
  block);
* `kick` — a `processQueue` invocation, e.g. the `setImmediate` scheduled by
  the `finally` block.

Interleavings of these bursts cover all event-loop schedules. -/

/-- Lifecycle status of a queued benchmark. -/
inductive JobStatus where
  | pending
  | running
  | completed
  | failed
deriving DecidableEq, Repr

/-- Terminal statuses. -/
def JobStatus.isTerminal : JobStatus → Bool
  | .completed => true
  | .failed => true
  | _ => false

/-- The queue's view of one job, reduced to the fields the scheduling
claims concern. -/
structure JobRecord where
  id : ℕ
  status : JobStatus
  error : Option String := none
deriving DecidableEq, Repr

/-- In-memory queue state: the record list (in enqueue order) and the
single-flight flag. -/
structure QueueState where
  jobs : List JobRecord
  isProcessing : Bool
deriving DecidableEq, Repr

/-- The four lifecycle events. -/
inductive QueueEvent where
  | added (id : ℕ)
  | started (id : ℕ)
  | completed (id : ℕ)
  | failed (id : ℕ) (error : String)
deriving DecidableEq, Repr

/-- Outcome of one external run as seen by `processQueue`. -/
inductive JobOutcome where
  | success
  | failure (error : String)
deriving DecidableEq, Repr

/-- Mark the first `pending` record `running`
(`this.queue.find(b => b.status === "pending")` plus the mutation), giving
its id and the updated list. -/
def markFirstPending : List JobRecord → Option (ℕ × List JobRecord)
  | [] => none
  | j :: js =>
    if j.status = .pending then some (j.id, { j with status := .running } :: js)
    else
      match markFirstPending js with
      | some (i, js2) => some (i, j :: js2)
      | none => none

/-- The synchronous head of `processQueue`: bail out if something is
processing; otherwise start the oldest pending record and emit `started`. -/
def processQueue (s : QueueState) : QueueState × List QueueEvent :=
  if s.isProcessing then (s, [])
  else
    match markFirstPending s.jobs with
    | none => (s, [])
    | some (i, js) => ({ jobs := js, isProcessing := true }, [.started i])

/-- `addBenchmark`: append a pending record, emit `added`, call
`processQueue`. -/
def addBenchmark (s : QueueState) (i : ℕ) : QueueState × List QueueEvent :=
  let s1 : QueueState := { s with jobs := s.jobs ++ [{ id := i, status := .pending }] }
  let r := processQueue s1
  (r.1, .added i :: r.2)

/-- The continuation of `processQueue` after `runBenchmark` settles for the
record with id `i`: mark it terminal, record the error, emit the terminal
event, clear `isProcessing`. -/
def finishJob (s : QueueState) (i : ℕ) (o : JobOutcome) : QueueState × List QueueEvent :=
  let js := s.jobs.map fun j =>
    if j.id = i then
      match o with
      | .success => { j with status := .completed }
      | .failure e => { j with status := .failed, error := some e }
    else j
  ({ jobs := js, isProcessing := false },
    [match o with
     | .success => .completed i
     | .failure e => .failed i e])

/-- One event-loop burst of the queue. -/
inductive QueueStep : QueueState → List QueueEvent → QueueState → Prop where
  | add (s : QueueState) (i : ℕ) (hfresh : ∀ j ∈ s.jobs, j.id ≠ i) :
      QueueStep s (addBenchmark s i).2 (addBenchmark s i).1
  | finish (s : QueueState) (i : ℕ) (o : JobOutcome)
      (hrun : ∃ j ∈ s.jobs, j.id = i ∧ j.status = .running) :
      QueueStep s (finishJob s i o).2 (finishJob s i o).1
  | kick (s : QueueState) :
      QueueStep s (processQueue s).2 (processQueue s).1

/-- Executions from the initial empty queue, accumulating emitted events. -/
inductive QueueReaches : QueueState → List QueueEvent → Prop where
  | init : QueueReaches { jobs := [], isProcessing := false } []
  | step {s1 : QueueState} {tr ev : List QueueEvent} {s2 : QueueState} :
      QueueReaches s1 tr → QueueStep s1 ev s2 → QueueReaches s2 (tr ++ ev)

/-! ### The timeout handler of `runBenchmark` -/

/-- Signals and timers issued by the runner. -/
inductive RunnerAction where
  | kill (signal : String)
  | scheduleKill (delayMs : ℕ) (signal : String)
deriving DecidableEq, Repr

/-- JavaScript rendering of `t / 1000` for an integer millisecond budget
`t`: the exact decimal, with the fractional part (at most three digits)
stripped of trailing zeros. -/
def secondsString (t : ℕ) : String :=
  if t % 1000 = 0 then natToString (t / 1000)
  else
    let r := t % 1000
    let ds := [digitChar (r / 100), digitChar (r / 10 % 10), digitChar (r % 10)]
    natToString (t / 1000) ++ "." ++ ⟨(ds.reverse.dropWhile (fun c => c = '0')).reverse⟩

/-- The rejection message of the timeout handler:
`` `Benchmark timed out after ${BENCHMARK_TIMEOUT / 1000}s` ``. -/
def timeoutMessage (t : ℕ) : String :=
  "Benchmark timed out after " ++ secondsString t ++ "s"

/-- Embedding of the timeout handler (`queue.ts` lines 177–186): send
`SIGTERM`, schedule a `SIGKILL` after a fixed 5000 ms grace window as
fire-and-forget cleanup, and reject with the timeout error in the same
burst — the rejection does not wait for the scheduled kill. -/
def onTimeout (t : ℕ) : List RunnerAction × JobOutcome :=
  ([.kill "SIGTERM", .scheduleKill 5000 "SIGKILL"], .failure (timeoutMessage t))

lemma startsWithList_append : ∀ mid post : List Char, startsWithList (mid ++ post) mid = true
  | [], post => by cases post <;> rfl
  | n :: ns, post => by
      show (decide (n = n) && startsWithList (ns ++ post) ns) = true
      rw [startsWithList_append ns post]
      simp

lemma hasSub_refl_append : ∀ pre mid post : List Char, hasSub (pre ++ mid ++ post) mid = true := by
  intro pre
  induction pre with
  | nil =>
    intro mid post
    cases mid with
    | nil =>
      cases post with
      | nil => rfl
      | cons c cs =>
        show (startsWithList (c :: cs) [] || hasSub cs []) = true
        rfl
    | cons m ms =>
      show (startsWithList ((m :: ms) ++ post) (m :: ms) || _) = true
      rw [startsWithList_append]
      rfl
  | cons c cs ih =>
    intro mid post
    show (startsWithList _ mid || hasSub (cs ++ mid ++ post) mid) = true
    rw [ih mid post, Bool.or_true]

lemma markFirstPending_of_pending :
    ∀ js : List JobRecord, (∃ j ∈ js, j.status = .pending) →
      ∃ i js2, markFirstPending js = some (i, js2) := by
  intro js
  induction js with
  | nil => rintro ⟨j, hj, _⟩; exact absurd hj (List.not_mem_nil _)
  | cons j0 js ih =>
    rintro ⟨j, hj, hjp⟩
    unfold markFirstPending
    by_cases h0 : j0.status = .pending
    · exact ⟨j0.id, _, by rw [if_pos h0]⟩
    · rcases List.mem_cons.mp hj with rfl | hj2
      · exact absurd hjp h0
      · obtain ⟨i, js2, hmk⟩ := ih ⟨j, hj2, hjp⟩
        exact ⟨i, j0 :: js2, by rw [if_neg h0, hmk]⟩

/-- Claim C4: when the external process exceeds the timeout budget `t`, the
handler sends a graceful `SIGTERM`, schedules a forced `SIGKILL` after a
fixed 5-second grace window without awaiting it, and rejects in the same
burst with an error whose message mentions the configured timeout value (in
seconds); the queue's continuation marks the record `failed` with that
message, emits `failed`, and the next `processQueue` invocation starts a
pending job. -/
theorem C4_timeout_behavior (t : ℕ) (s : QueueState) (i : ℕ)
    (_hproc : s.isProcessing = true)
    (hrun : ∃ j ∈ s.jobs, j.id = i ∧ j.status = .running)
    (hpend : ∃ j ∈ s.jobs, j.status = .pending ∧ j.id ≠ i) :
    (onTimeout t).1 = [.kill "SIGTERM", .scheduleKill 5000 "SIGKILL"] ∧
    (onTimeout t).2 = .failure (timeoutMessage t) ∧
    hasSub (timeoutMessage t).data (secondsString t).data = true ∧
    (∃ j ∈ (finishJob s i (onTimeout t).2).1.jobs,
        j.id = i ∧ j.status = .failed ∧ j.error = some (timeoutMessage t)) ∧
    (finishJob s i (onTimeout t).2).2 = [.failed i (timeoutMessage t)] ∧
    (∃ i2 s2, processQueue (finishJob s i (onTimeout t).2).1 = (s2, [.started i2])) := by
  obtain ⟨jr, hjr, hjri, hjrs⟩ := hrun
  obtain ⟨jp, hjp, hjps, hjpi⟩ := hpend
  refine ⟨rfl, rfl, ?_, ?_, rfl, ?_⟩
  · show hasSub ("Benchmark timed out after " ++ secondsString t ++ "s").data
      (secondsString t).data = true
    rw [String.data_append, String.data_append]
    exact hasSub_refl_append _ _ _
  · refine ⟨{ jr with status := .failed, error := some (timeoutMessage t) }, ?_, hjri, rfl, rfl⟩
    unfold finishJob
    dsimp only
    refine List.mem_map.mpr ⟨jr, hjr, ?_⟩
    rw [if_pos hjri]
    rfl
  · have hpend2 : ∃ j ∈ (finishJob s i (onTimeout t).2).1.jobs, j.status = .pending := by
      refine ⟨jp, ?_, hjps⟩
      unfold finishJob
      dsimp only
      exact List.mem_map.mpr ⟨jp, hjp, by rw [if_neg hjpi]⟩
    obtain ⟨i2, js2, hmk⟩ := markFirstPending_of_pending _ hpend2
    refine ⟨i2, { jobs := js2, isProcessing := true }, ?_⟩
    unfold processQueue
    rw [if_neg (by simp [finishJob]), hmk]

/-- Witness for C4 at a concrete input: a 90 500 ms budget, a running job 1
and a pending job 2. -/
theorem C4_timeout_behavior_witness :
    (onTimeout 90500).1 = [.kill "SIGTERM", .scheduleKill 5000 "SIGKILL"] ∧
    (onTimeout 90500).2 = .failure (timeoutMessage 90500) ∧
    hasSub (timeoutMessage 90500).data (secondsString 90500).data = true ∧
    (∃ j ∈ (finishJob ⟨[⟨1, .running, none⟩, ⟨2, .pending, none⟩], true⟩ 1
          (onTimeout 90500).2).1.jobs,
        j.id = 1 ∧ j.status = .failed ∧ j.error = some (timeoutMessage 90500)) ∧
    (finishJob ⟨[⟨1, .running, none⟩, ⟨2, .pending, none⟩], true⟩ 1
        (onTimeout 90500).2).2 = [.failed 1 (timeoutMessage 90500)] ∧
    (∃ i2 s2, processQueue (finishJob ⟨[⟨1, .running, none⟩, ⟨2, .pending, none⟩], true⟩ 1
        (onTimeout 90500).2).1 = (s2, [.started i2])) :=
  C4_timeout_behavior 90500 ⟨[⟨1, .running, none⟩, ⟨2, .pending, none⟩], true⟩ 1 rfl
    ⟨⟨1, .running, none⟩, by simp, rfl, rfl⟩
    ⟨⟨2, .pending, none⟩, by simp, rfl, by decide⟩

/-! ### Scheduling invariants (claim C1) -/

/-- Number of `running` records. -/
def countRunning (js : List JobRecord) : ℕ :=
  (js.filter fun j => j.status = .running).length

/-- The id carried by an `added` event. -/
def addedId : QueueEvent → Option ℕ
  | .added i => some i
  | _ => none

/-- A terminal (`completed`/`failed`) event for job `i`. -/
def isTerminalEventFor (i : ℕ) (e : QueueEvent) : Prop :=
  e = .completed i ∨ ∃ msg, e = .failed i msg

/-- FIFO discipline between two records in enqueue order: once the later
one has left `pending`, the earlier one is terminal. -/
def fifoR (j1 j2 : JobRecord) : Prop :=
  j2.status ≠ .pending → j1.status.isTerminal = true

/-- `added i1` occurs before `added i2` in the trace. -/
def addedBefore (tr : List QueueEvent) (i1 i2 : ℕ) : Prop :=
  ∃ A B C, tr.filterMap addedId = A ++ i1 :: (B ++ i2 :: C)

/-- Invariants tying a queue state to the trace that produced it. -/
structure QueueWF (s : QueueState) (tr : List QueueEvent) : Prop where
  idle_no_running : s.isProcessing = false → ∀ j ∈ s.jobs, j.status ≠ .running
  one_running : countRunning s.jobs ≤ 1
  fifo : s.jobs.Pairwise fifoR
  ids_nodup : (s.jobs.map fun j => j.id).Nodup
  added_ids : s.jobs.map (fun j => j.id) = tr.filterMap addedId
  terminal_evt : ∀ j ∈ s.jobs, j.status.isTerminal = true →
    ∃ e ∈ tr, isTerminalEventFor j.id e
  started_status : ∀ i, QueueEvent.started i ∈ tr →
    ∃ j ∈ s.jobs, j.id = i ∧ j.status ≠ .pending
  started_once : ∀ i, tr.count (QueueEvent.started i) ≤ 1

lemma mem_length_le_one {α : Type} {l : List α} (h : l.length ≤ 1) {x y : α}
    (hx : x ∈ l) (hy : y ∈ l) : x = y := by
  cases l with
  | nil => exact absurd hx (List.not_mem_nil _)
  | cons a t =>
    cases t with
    | nil =>
      rw [List.mem_singleton] at hx hy
      rw [hx, hy]
    | cons b t2 => simp at h

lemma markFirstPending_spec :
    ∀ {js : List JobRecord} {i : ℕ} {js2 : List JobRecord},
      markFirstPending js = some (i, js2) →
      ∃ a j0 b, js = a ++ j0 :: b ∧ (∀ j ∈ a, j.status ≠ .pending) ∧
        j0.status = .pending ∧ j0.id = i ∧
        js2 = a ++ { j0 with status := .running } :: b := by
  intro js
  induction js with
  | nil => intro i js2 h; exact absurd h (by simp [markFirstPending])
  | cons j0 js ih =>
    intro i js2 h
    unfold markFirstPending at h
    split_ifs at h with h0
    · rw [Option.some.injEq, Prod.mk.injEq] at h
      exact ⟨[], j0, js, rfl, by simp, h0, h.1, by rw [← h.2, List.nil_append]⟩
    · rcases hmk : markFirstPending js with _ | ⟨pi, pjs⟩
      · rw [hmk] at h
        exact absurd h (by simp)
      · rw [hmk, Option.some.injEq, Prod.mk.injEq] at h
        obtain ⟨hi, hjs⟩ := h
        obtain ⟨a, jp, b, hdec, hnp, hps, hid, hjs2⟩ := ih hmk
        refine ⟨j0 :: a, jp, b, by rw [hdec, List.cons_append], ?_, hps, by rw [← hi, hid], ?_⟩
        · intro j hj
          rcases List.mem_cons.mp hj with rfl | hj2
          · exact h0
          · exact hnp j hj2
        · rw [← hjs, hjs2, List.cons_append]

lemma countRunning_append (a b : List JobRecord) :
    countRunning (a ++ b) = countRunning a + countRunning b := by
  unfold countRunning
  rw [List.filter_append, List.length_append]

lemma countRunning_eq_zero {js : List JobRecord}
    (h : ∀ j ∈ js, j.status ≠ .running) : countRunning js = 0 := by
  unfold countRunning
  rw [List.filter_eq_nil_iff.mpr (by simpa using h)]
  rfl

lemma terminal_of_not_pending_not_running {st : JobStatus}
    (h1 : st ≠ .pending) (h2 : st ≠ .running) : st.isTerminal = true := by
  cases st
  · exact absurd rfl h1
  · exact absurd rfl h2
  · rfl
  · rfl

lemma queueWF_append_pending {s : QueueState} {tr : List QueueEvent} (hwf : QueueWF s tr)
    (i : ℕ) (hfresh : ∀ j ∈ s.jobs, j.id ≠ i) :
    QueueWF { s with jobs := s.jobs ++ [{ id := i, status := .pending }] }
      (tr ++ [QueueEvent.added i]) := by
  constructor
  · intro hp j hj
    rcases List.mem_append.mp hj with hj1 | hj2
    · exact hwf.idle_no_running hp j hj1
    · rw [List.mem_singleton] at hj2
      rw [hj2]
      simp
  · show countRunning (s.jobs ++ [{ id := i, status := .pending }]) ≤ 1
    rw [countRunning_append]
    have h2 : countRunning [({ id := i, status := .pending } : JobRecord)] = 0 := by
      apply countRunning_eq_zero
      intro j hj
      rw [List.mem_singleton] at hj
      rw [hj]
      simp
    rw [h2]
    simpa using hwf.one_running
  · refine List.pairwise_append.mpr ⟨hwf.fifo, List.pairwise_singleton _ _, ?_⟩
    intro a _ b hb
    rw [List.mem_singleton] at hb
    intro hbs
    rw [hb] at hbs
    exact absurd rfl hbs
  · show ((s.jobs ++ [({ id := i, status := .pending } : JobRecord)]).map fun j => j.id).Nodup
    rw [List.map_append]
    refine List.Nodup.append hwf.ids_nodup (by simp) ?_
    rw [show (List.map (fun (j : JobRecord) => j.id)
        [({ id := i, status := .pending } : JobRecord)]) = [i] from rfl,
      List.disjoint_singleton]
    intro hmem
    obtain ⟨j, hj, hji⟩ := List.mem_map.mp hmem
    exact hfresh j hj hji
  · show ((s.jobs ++ [({ id := i, status := .pending } : JobRecord)]).map fun j => j.id) =
      (tr ++ [QueueEvent.added i]).filterMap addedId
    rw [List.map_append, List.filterMap_append, hwf.added_ids]
    rfl
  · intro j hj hterm
    rcases List.mem_append.mp hj with hj1 | hj2
    · obtain ⟨e, he, hef⟩ := hwf.terminal_evt j hj1 hterm
      exact ⟨e, List.mem_append_left _ he, hef⟩
    · rw [List.mem_singleton] at hj2
      rw [hj2] at hterm
      simp [JobStatus.isTerminal] at hterm
  · intro i' hi'
    rcases List.mem_append.mp hi' with h1 | h2
    · obtain ⟨j, hj, hji, hjs⟩ := hwf.started_status i' h1
      exact ⟨j, List.mem_append_left _ hj, hji, hjs⟩
    · rw [List.mem_singleton] at h2
      exact absurd h2 (by simp)
  · intro i'
    rw [List.count_append]
    have : List.count (QueueEvent.started i') [QueueEvent.added i] = 0 := by
      rw [List.count_eq_zero]
      simp
    rw [this]
    simpa using hwf.started_once i'

lemma queueWF_start {s : QueueState} {tr : List QueueEvent} (hwf : QueueWF s tr)
    (hidle : s.isProcessing = false) {i0 : ℕ} {js2 : List JobRecord}
    (hmk : markFirstPending s.jobs = some (i0, js2)) :
    QueueWF { jobs := js2, isProcessing := true } (tr ++ [QueueEvent.started i0]) := by
  obtain ⟨a, j0, b, hdec, hnp, hps, hid, hjs2⟩ := markFirstPending_spec hmk
  have hterm : ∀ j ∈ a, j.status.isTerminal = true := by
    intro j hj
    refine terminal_of_not_pending_not_running (hnp j hj) ?_
    exact hwf.idle_no_running hidle j (by rw [hdec]; exact List.mem_append_left _ hj)
  have hpw := hwf.fifo
  rw [hdec] at hpw
  obtain ⟨hpa, hpc, hcross⟩ := List.pairwise_append.mp hpw
  obtain ⟨hj0b, hpb⟩ := List.pairwise_cons.mp hpc
  have hbp : ∀ j ∈ b, j.status = .pending := by
    intro j hj
    by_contra hcon
    have := hj0b j hj hcon
    rw [hps] at this
    exact absurd this (by simp [JobStatus.isTerminal])
  constructor
  · intro hp
    exact absurd hp (by simp)
  · show countRunning js2 ≤ 1
    rw [hjs2, countRunning_append]
    have ha0 : countRunning a = 0 := countRunning_eq_zero (fun j hj => by
      intro hcon
      have := hterm j hj
      rw [hcon] at this
      exact absurd this (by simp [JobStatus.isTerminal]))
    have hb0 : countRunning ({ j0 with status := .running } :: b) =
        1 + countRunning b := by
      show countRunning ([{ j0 with status := .running }] ++ b) = 1 + countRunning b
      rw [countRunning_append]
      rfl
    have hb0' : countRunning b = 0 := countRunning_eq_zero (fun j hj => by
      rw [hbp j hj]
      simp)
    rw [ha0, hb0, hb0']
  · rw [hjs2]
    refine List.pairwise_append.mpr ⟨hpa, ?_, ?_⟩
    · refine List.pairwise_cons.mpr ⟨?_, hpb⟩
      intro j hj hcon
      exact absurd (hbp j hj) hcon
    · intro x hx y _
      exact fun _ => hterm x hx
  · show (js2.map fun j => j.id).Nodup
    have : js2.map (fun j => j.id) = s.jobs.map fun j => j.id := by
      rw [hjs2, hdec, List.map_append, List.map_append]
      rfl
    rw [this]
    exact hwf.ids_nodup
  · show (js2.map fun j => j.id) = (tr ++ [QueueEvent.started i0]).filterMap addedId
    have : js2.map (fun j => j.id) = s.jobs.map fun j => j.id := by
      rw [hjs2, hdec, List.map_append, List.map_append]
      rfl
    rw [this, List.filterMap_append, hwf.added_ids]
    simp [addedId]
  · intro j hj hterm2
    have hj' : j ∈ s.jobs ∨ j = { j0 with status := .running } := by
      rw [hjs2] at hj
      rcases List.mem_append.mp hj with h1 | h2
      · exact Or.inl (by rw [hdec]; exact List.mem_append_left _ h1)
      · rcases List.mem_cons.mp h2 with h3 | h4
        · exact Or.inr h3
        · exact Or.inl (by
            rw [hdec]
            exact List.mem_append_right _ (List.mem_cons_of_mem _ h4))
    rcases hj' with h1 | h2
    · obtain ⟨e, he, hef⟩ := hwf.terminal_evt j h1 hterm2
      exact ⟨e, List.mem_append_left _ he, hef⟩
    · rw [h2] at hterm2
      simp [JobStatus.isTerminal] at hterm2
  · intro i' hi'
    rcases List.mem_append.mp hi' with h1 | h2
    · obtain ⟨j, hj, hji, hjs⟩ := hwf.started_status i' h1
      rw [hdec] at hj
      rcases List.mem_append.mp hj with ha | hc
      · exact ⟨j, by rw [hjs2]; exact List.mem_append_left _ ha, hji, hjs⟩
      · rcases List.mem_cons.mp hc with h3 | h4
        · rw [h3] at hjs
          exact absurd hps hjs
        · exact ⟨j, by
            rw [hjs2]
            exact List.mem_append_right _ (List.mem_cons_of_mem _ h4), hji, hjs⟩
    · rw [List.mem_singleton, QueueEvent.started.injEq] at h2
      refine ⟨{ j0 with status := .running }, ?_, ?_, by simp⟩
      · rw [hjs2]
        exact List.mem_append_right _ (List.mem_cons_self _ _)
      · show j0.id = i'
        rw [hid, h2]
  · intro i'
    rw [List.count_append]
    by_cases hi0 : i' = i0
    · subst hi0
      have hnot : QueueEvent.started i' ∉ tr := by
        intro hmem
        obtain ⟨j, hj, hji, hjs⟩ := hwf.started_status i' hmem
        have hj0mem : j0 ∈ s.jobs := by
          rw [hdec]
          exact List.mem_append_right _ (List.mem_cons_self _ _)
        have : j = j0 := List.inj_on_of_nodup_map hwf.ids_nodup hj hj0mem
          (by rw [hji, hid])
        rw [this] at hjs
        exact absurd hps hjs
      rw [List.count_eq_zero.mpr hnot]
      simp
    · have : List.count (QueueEvent.started i') [QueueEvent.started i0] = 0 := by
        rw [List.count_eq_zero]
        simp [hi0]
      rw [this]
      simpa using hwf.started_once i'

/-- The terminal event emitted by `finishJob`. -/
def finishEvent (i : ℕ) (o : JobOutcome) : QueueEvent :=
  match o with
  | .success => .completed i
  | .failure e => .failed i e

/-- The record update performed by `finishJob`. -/
def finishMap (i : ℕ) (o : JobOutcome) (j : JobRecord) : JobRecord :=
  if j.id = i then
    match o with
    | .success => { j with status := .completed }
    | .failure e => { j with status := .failed, error := some e }
  else j

lemma finishJob_jobs (s : QueueState) (i : ℕ) (o : JobOutcome) :
    (finishJob s i o).1.jobs = s.jobs.map (finishMap i o) := rfl

lemma finishMap_id (i : ℕ) (o : JobOutcome) (j : JobRecord) :
    (finishMap i o j).id = j.id := by
  unfold finishMap
  split_ifs
  · cases o <;> rfl
  · rfl

lemma finishMap_not_pending {i : ℕ} {o : JobOutcome} {j : JobRecord}
    (h : j.status ≠ .pending) : (finishMap i o j).status ≠ .pending := by
  unfold finishMap
  split_ifs
  · cases o <;> simp
  · exact h

lemma queueWF_finish {s : QueueState} {tr : List QueueEvent} (hwf : QueueWF s tr)
    {i : ℕ} {o : JobOutcome}
    (hrun : ∃ j ∈ s.jobs, j.id = i ∧ j.status = .running) :
    QueueWF (finishJob s i o).1 (tr ++ (finishJob s i o).2) := by
  obtain ⟨jr, hjr, hjri, hjrs⟩ := hrun
  have honly : ∀ j ∈ s.jobs, j.id = i → j = jr :=
    fun j hj hji => List.inj_on_of_nodup_map hwf.ids_nodup hj hjr (by rw [hji, hjri])
  have honlyrun : ∀ j ∈ s.jobs, j.status = .running → j = jr := by
    intro j hj hjs
    have h1 : j ∈ s.jobs.filter fun j => j.status = .running :=
      List.mem_filter.mpr ⟨hj, by simp [hjs]⟩
    have h2 : jr ∈ s.jobs.filter fun j => j.status = .running :=
      List.mem_filter.mpr ⟨hjr, by simp [hjrs]⟩
    exact mem_length_le_one hwf.one_running h1 h2
  have hnorun : ∀ j' ∈ (finishJob s i o).1.jobs, j'.status ≠ .running := by
    intro j' hj'
    rw [finishJob_jobs] at hj'
    obtain ⟨j, hj, rfl⟩ := List.mem_map.mp hj'
    unfold finishMap
    split_ifs with hid
    · cases o <;> simp
    · intro hcon
      exact hid ((honlyrun j hj hcon) ▸ hjri)
  have hev : (finishJob s i o).2 = [finishEvent i o] := by cases o <;> rfl
  have hnostart : ∀ i', QueueEvent.started i' ∉ (finishJob s i o).2 := by
    intro i' hmem
    rw [hev] at hmem
    rw [List.mem_singleton] at hmem
    cases o <;> simp [finishEvent] at hmem
  have hnoadd : (finishJob s i o).2.filterMap addedId = [] := by
    rw [hev]
    cases o <;> rfl
  constructor
  · intro _ j' hj'
    exact hnorun j' hj'
  · show countRunning (finishJob s i o).1.jobs ≤ 1
    rw [countRunning_eq_zero hnorun]
    omega
  · rw [finishJob_jobs]
    rw [List.pairwise_map]
    refine hwf.fifo.imp_of_mem ?_
    intro a b ha hb hR hfb
    unfold finishMap
    split_ifs with hid
    · cases o <;> rfl
    · apply hR
      intro hbp
      apply hfb
      unfold finishMap
      split_ifs with hid2
      · exact absurd hjrs (by rw [← honly b hb hid2, hbp]; simp)
      · exact hbp
  · rw [finishJob_jobs]
    have : (s.jobs.map (finishMap i o)).map (fun j => j.id) = s.jobs.map fun j => j.id := by
      rw [List.map_map]
      exact List.map_congr_left fun j _ => finishMap_id i o j
    rw [this]
    exact hwf.ids_nodup
  · rw [finishJob_jobs, List.filterMap_append, hnoadd, List.append_nil]
    have : (s.jobs.map (finishMap i o)).map (fun j => j.id) = s.jobs.map fun j => j.id := by
      rw [List.map_map]
      exact List.map_congr_left fun j _ => finishMap_id i o j
    rw [this]
    exact hwf.added_ids
  · intro j' hj' hterm
    rw [finishJob_jobs] at hj'
    obtain ⟨j, hj, rfl⟩ := List.mem_map.mp hj'
    by_cases hid : j.id = i
    · refine ⟨finishEvent i o, ?_, ?_⟩
      · refine List.mem_append_right _ ?_
        rw [hev]
        exact List.mem_singleton.mpr rfl
      · rw [finishMap_id, hid]
        cases o
        · exact Or.inl rfl
        · exact Or.inr ⟨_, rfl⟩
    · have hfj : finishMap i o j = j := by
        unfold finishMap
        rw [if_neg hid]
      rw [hfj] at hterm ⊢
      obtain ⟨e, he, hef⟩ := hwf.terminal_evt j hj hterm
      exact ⟨e, List.mem_append_left _ he, hef⟩
  · intro i' hi'
    rcases List.mem_append.mp hi' with h1 | h2
    · obtain ⟨j, hj, hji, hjs⟩ := hwf.started_status i' h1
      refine ⟨finishMap i o j, ?_, ?_, finishMap_not_pending hjs⟩
      · rw [finishJob_jobs]
        exact List.mem_map.mpr ⟨j, hj, rfl⟩
      · rw [finishMap_id]
        exact hji
    · exact absurd h2 (hnostart i')
  · intro i'
    rw [List.count_append, List.count_eq_zero.mpr (hnostart i')]
    simpa using hwf.started_once i'

lemma bool_eq_false_of_not {b : Bool} (h : ¬ b = true) : b = false := by
  cases b
  · rfl
  · exact absurd rfl h

lemma queueWF_processQueue {s : QueueState} {tr : List QueueEvent} (hwf : QueueWF s tr) :
    QueueWF (processQueue s).1 (tr ++ (processQueue s).2) := by
  unfold processQueue
  split_ifs with hp
  · rw [List.append_nil]
    exact hwf
  · rcases hmk : markFirstPending s.jobs with _ | ⟨i0, js2⟩
    · rw [List.append_nil]
      exact hwf
    · exact queueWF_start hwf (bool_eq_false_of_not hp) hmk

lemma queueWF_step {s1 : QueueState} {tr ev : List QueueEvent} {s2 : QueueState}
    (hwf : QueueWF s1 tr) (hst : QueueStep s1 ev s2) : QueueWF s2 (tr ++ ev) := by
  cases hst with
  | add i hfresh =>
    show QueueWF (addBenchmark s1 i).1 (tr ++ (addBenchmark s1 i).2)
    unfold addBenchmark
    dsimp only
    have h := queueWF_processQueue (queueWF_append_pending hwf i hfresh)
    rw [List.append_assoc, List.singleton_append] at h
    exact h
  | finish i o hrun => exact queueWF_finish hwf hrun
  | kick => exact queueWF_processQueue hwf

lemma queueReaches_WF {s : QueueState} {tr : List QueueEvent}
    (h : QueueReaches s tr) : QueueWF s tr := by
  induction h with
  | init =>
    constructor
    · intro _ j hj
      exact absurd hj (List.not_mem_nil _)
    · show countRunning [] ≤ 1
      rw [countRunning_eq_zero (fun j hj => absurd hj (List.not_mem_nil _))]
      omega
    · exact List.Pairwise.nil
    · exact List.nodup_nil
    · rfl
    · intro j hj
      exact absurd hj (List.not_mem_nil _)
    · intro i hi
      exact absurd hi (List.not_mem_nil _)
    · intro i
      simp
  | step h1 hst ih => exact queueWF_step ih hst

lemma map_eq_append_cons_split {α β : Type} {f : α → β} :
    ∀ {A : List β} {l : List α} {b : β} {R : List β},
      l.map f = A ++ b :: R →
      ∃ la x lr, l = la ++ x :: lr ∧ la.map f = A ∧ f x = b ∧ lr.map f = R := by
  intro A
  induction A with
  | nil =>
    intro l b R h
    cases l with
    | nil => exact absurd h (by simp)
    | cons x lr =>
      rw [List.map_cons, List.nil_append, List.cons.injEq] at h
      exact ⟨[], x, lr, rfl, rfl, h.1, h.2⟩
  | cons a A ih =>
    intro l b R h
    cases l with
    | nil => exact absurd h (by simp)
    | cons x0 l' =>
      rw [List.map_cons, List.cons_append, List.cons.injEq] at h
      obtain ⟨la, x, lr, hdec, hA, hb, hR⟩ := ih h.2
      exact ⟨x0 :: la, x, lr, by rw [hdec, List.cons_append],
        by rw [List.map_cons, hA, h.1], hb, hR⟩

lemma nodup_decomp_unique {α β : Type} {f : α → β} :
    ∀ {u1 : List α} {l v1 u2 v2 : List α} {x y : α},
      (l.map f).Nodup → l = u1 ++ x :: u2 → l = v1 ++ y :: v2 → f x = f y →
      u1 = v1 ∧ x = y ∧ u2 = v2 := by
  intro u1
  induction u1 with
  | nil =>
    intro l v1 u2 v2 x y hnd hu hv hxy
    subst hu
    simp only [List.nil_append] at hnd hv ⊢
    cases v1 with
    | nil =>
      simp only [List.nil_append] at hv
      obtain ⟨h1, h2⟩ := List.cons.inj hv
      exact ⟨rfl, h1, h2⟩
    | cons w v1' =>
      simp only [List.cons_append] at hv
      obtain ⟨h1, h2⟩ := List.cons.inj hv
      exfalso
      rw [List.map_cons, List.nodup_cons] at hnd
      apply hnd.1
      rw [hxy]
      refine List.mem_map.mpr ⟨y, ?_, rfl⟩
      rw [h2]
      exact List.mem_append_right _ (List.mem_cons_self _ _)
  | cons w u1' ih =>
    intro l v1 u2 v2 x y hnd hu hv hxy
    subst hu
    simp only [List.cons_append, List.map_cons, List.nodup_cons] at hnd hv ⊢
    cases v1 with
    | nil =>
      simp only [List.nil_append] at hv
      obtain ⟨h1, h2⟩ := List.cons.inj hv
      exfalso
      apply hnd.1
      rw [h1, ← hxy]
      exact List.mem_map.mpr ⟨x, List.mem_append_right _ (List.mem_cons_self _ _), rfl⟩
    | cons w' v1' =>
      simp only [List.cons_append] at hv
      obtain ⟨h1, h2⟩ := List.cons.inj hv
      obtain ⟨h3, h4, h5⟩ := ih hnd.2 rfl h2 hxy
      exact ⟨by rw [h1, h3], h4, h5⟩

lemma count_le_one_decomp_unique {α : Type} [DecidableEq α] {l : List α} {x : α}
    (h : l.count x ≤ 1) {a b c d : List α} (h1 : l = a ++ x :: b) (h2 : l = c ++ x :: d) :
    a = c ∧ b = d := by
  have hcount : (a ++ x :: b).count x ≤ 1 := h1 ▸ h
  rw [List.count_append, List.count_cons] at hcount
  simp at hcount
  have hxa : x ∉ a := by
    intro hmem
    have : 1 ≤ a.count x := List.count_pos_iff.mpr hmem
    omega
  have hcount2 : (c ++ x :: d).count x ≤ 1 := h2 ▸ h
  rw [List.count_append, List.count_cons] at hcount2
  simp at hcount2
  have hxc : x ∉ c := by
    intro hmem
    have : 1 ≤ c.count x := List.count_pos_iff.mpr hmem
    omega
  exact append_sep_inj (h1.symm.trans h2) hxa hxc

lemma addedBefore_restrict {L Lev : List ℕ} (hnd : (L ++ Lev).Nodup)
    {A B C : List ℕ} {i1 i2 : ℕ}
    (hdec : L ++ Lev = A ++ i1 :: (B ++ i2 :: C)) (hi2 : i2 ∈ L) :
    ∃ C', L = A ++ i1 :: (B ++ i2 :: C') := by
  obtain ⟨P, Q, hPQ⟩ := List.append_of_mem hi2
  have hfull : L ++ Lev = P ++ i2 :: (Q ++ Lev) := by
    rw [hPQ, List.append_assoc, List.cons_append]
  have hdec2 : L ++ Lev = (A ++ i1 :: B) ++ i2 :: C := by
    rw [hdec, List.append_assoc, List.cons_append]
  have hcnt : (L ++ Lev).count i2 ≤ 1 := List.nodup_iff_count_le_one.mp hnd i2
  obtain ⟨hpre, hsuf⟩ := count_le_one_decomp_unique hcnt hdec2 hfull
  refine ⟨Q, ?_⟩
  rw [hPQ, ← hpre, List.append_assoc, List.cons_append]

lemma terminal_before_start {s2 : QueueState} {tr2 : List QueueEvent}
    (hwf : QueueWF s2 tr2) {i1 i2 : ℕ} (hbef : addedBefore tr2 i1 i2)
    (hrun : ∃ j ∈ s2.jobs, j.id = i2 ∧ j.status = .running) :
    ∃ e ∈ tr2, isTerminalEventFor i1 e := by
  obtain ⟨A, B, C, hABC⟩ := hbef
  have hids : s2.jobs.map (fun j => j.id) = A ++ i1 :: (B ++ i2 :: C) := by
    rw [hwf.added_ids, hABC]
  obtain ⟨ja, jx, rest, hjobs, hA, hjx, hrest⟩ := map_eq_append_cons_split hids
  obtain ⟨jm, jy, jc, hrest2, hB, hjy, hC⟩ := map_eq_append_cons_split hrest
  obtain ⟨jr, hjr, hjri, hjrs⟩ := hrun
  obtain ⟨w1, w2, hw⟩ := List.append_of_mem hjr
  have hjobs2 : s2.jobs = ja ++ jx :: (jm ++ jy :: jc) := by rw [hjobs, hrest2]
  have hjobs3 : s2.jobs = (ja ++ jx :: jm) ++ jy :: jc := by
    rw [hjobs2, List.append_assoc, List.cons_append]
  obtain ⟨_, hjyjr, _⟩ := nodup_decomp_unique hwf.ids_nodup hjobs3 hw (by rw [hjy, hjri])
  have hjyrun : jy.status = .running := by rw [hjyjr, hjrs]
  have hpw := hwf.fifo
  rw [hjobs2] at hpw
  have hpc : List.Pairwise fifoR (jx :: (jm ++ jy :: jc)) := (List.pairwise_append.mp hpw).2.1
  have hR : fifoR jx jy :=
    (List.pairwise_cons.mp hpc).1 jy (List.mem_append_right _ (List.mem_cons_self _ _))
  have hterm : jx.status.isTerminal = true := hR (by rw [hjyrun]; simp)
  obtain ⟨e, he, hef⟩ := hwf.terminal_evt jx
    (by rw [hjobs2]; exact List.mem_append_right _ (List.mem_cons_self _ _)) hterm
  exact ⟨e, he, hjx ▸ hef⟩

lemma processQueue_cases (s : QueueState) :
    processQueue s = (s, []) ∨
    ∃ i0 js2, s.isProcessing = false ∧ markFirstPending s.jobs = some (i0, js2) ∧
      processQueue s = ({ jobs := js2, isProcessing := true }, [QueueEvent.started i0]) := by
  unfold processQueue
  split_ifs with hp
  · exact Or.inl rfl
  · rcases hmk : markFirstPending s.jobs with _ | ⟨i0, js2⟩
    · exact Or.inl rfl
    · exact Or.inr ⟨i0, js2, bool_eq_false_of_not hp, rfl, rfl⟩

lemma start_has_running {js : List JobRecord} {i0 : ℕ} {js2 : List JobRecord}
    (hmk : markFirstPending js = some (i0, js2)) :
    ∃ j ∈ js2, j.id = i0 ∧ j.status = .running := by
  obtain ⟨a, j0, b, _, _, _, hid, hjs2⟩ := markFirstPending_spec hmk
  exact ⟨{ j0 with status := .running },
    by rw [hjs2]; exact List.mem_append_right _ (List.mem_cons_self _ _), hid, rfl⟩

/-- The trace-level FIFO property: every `started` event for a job enqueued
later is preceded by a terminal event for each job enqueued earlier. -/
def startedProp (tr : List QueueEvent) : Prop :=
  ∀ i1 i2, addedBefore tr i1 i2 → QueueEvent.started i2 ∈ tr →
    ∃ tr1 tr2, tr = tr1 ++ QueueEvent.started i2 :: tr2 ∧
      ∃ e ∈ tr1, isTerminalEventFor i1 e

lemma queueReaches_startedProp {s : QueueState} {tr : List QueueEvent}
    (h : QueueReaches s tr) : startedProp tr := by
  induction h with
  | init =>
    intro i1 i2 _ hmem
    exact absurd hmem (List.not_mem_nil _)
  | @step s1 tr0 ev s2 h1 hst ih =>
    have hwf1 : QueueWF s1 tr0 := queueReaches_WF h1
    have hwf2 : QueueWF s2 (tr0 ++ ev) := queueWF_step hwf1 hst
    intro i1 i2 hbef hmem
    by_cases hold : QueueEvent.started i2 ∈ tr0
    · obtain ⟨A, B, C, hABC⟩ := hbef
      rw [List.filterMap_append] at hABC
      have hi2L : i2 ∈ tr0.filterMap addedId := by
        obtain ⟨j, hj, hji, _⟩ := hwf1.started_status i2 hold
        rw [← hwf1.added_ids]
        exact List.mem_map.mpr ⟨j, hj, hji⟩
      have hnd : (tr0.filterMap addedId ++ ev.filterMap addedId).Nodup := by
        rw [← List.filterMap_append, ← hwf2.added_ids]
        exact hwf2.ids_nodup
      obtain ⟨C', hC'⟩ := addedBefore_restrict hnd hABC hi2L
      obtain ⟨t1, t2, hdect, e, he, hef⟩ := ih i1 i2 ⟨A, B, C', hC'⟩ hold
      refine ⟨t1, t2 ++ ev, ?_, e, he, hef⟩
      rw [hdect, List.append_assoc, List.cons_append]
    · have hev : QueueEvent.started i2 ∈ ev := by
        rcases List.mem_append.mp hmem with hmm | hmm
        · exact absurd hmm hold
        · exact hmm
      cases hst with
      | add i hfresh =>
        show ∃ tr1 tr2, tr0 ++ (addBenchmark s1 i).2 = tr1 ++ QueueEvent.started i2 :: tr2 ∧
          ∃ e ∈ tr1, isTerminalEventFor i1 e
        have hev' : QueueEvent.started i2 ∈ (addBenchmark s1 i).2 := hev
        unfold addBenchmark at hev' ⊢
        dsimp only at hev' ⊢
        rcases processQueue_cases { s1 with jobs := s1.jobs ++ [{ id := i, status := .pending }] }
          with hcase | ⟨i0, js2, hidle, hmk, hcase⟩
        · rw [hcase] at hev'
          rcases List.mem_cons.mp hev' with hc | hc
          · exact absurd hc (by simp)
          · exact absurd hc (List.not_mem_nil _)
        · rw [hcase] at hev' ⊢
          dsimp only at hev' ⊢
          have hi20 : i2 = i0 := by
            rcases List.mem_cons.mp hev' with hc | hc
            · exact absurd hc (by simp)
            · rcases List.mem_cons.mp hc with hc2 | hc2
              · exact QueueEvent.started.inj hc2
              · exact absurd hc2 (List.not_mem_nil _)
          subst hi20
          have hrun2 : ∃ j ∈ (addBenchmark s1 i).1.jobs, j.id = i2 ∧ j.status = .running := by
            have h := start_has_running hmk
            unfold addBenchmark
            dsimp only
            rw [hcase]
            exact h
          obtain ⟨e, he, hef⟩ := terminal_before_start hwf2 hbef hrun2
          refine ⟨tr0 ++ [QueueEvent.added i], [], ?_, e, ?_, hef⟩
          · rw [List.append_assoc, List.singleton_append]
          · have hetr : e ∈ tr0 ++ (addBenchmark s1 i).2 := he
            unfold addBenchmark at hetr
            dsimp only at hetr
            rw [hcase] at hetr
            dsimp only at hetr
            rcases List.mem_append.mp hetr with h5 | h5
            · exact List.mem_append_left _ h5
            · rcases List.mem_cons.mp h5 with h6 | h6
              · exact List.mem_append_right _ (by rw [h6]; exact List.mem_singleton.mpr rfl)
              · rcases List.mem_cons.mp h6 with h7 | h7
                · exfalso
                  rcases hef with hef1 | ⟨msg, hef2⟩
                  · rw [hef1] at h7
                    exact QueueEvent.noConfusion h7
                  · rw [hef2] at h7
                    exact QueueEvent.noConfusion h7
                · exact absurd h7 (List.not_mem_nil _)
      | finish i o hrun =>
        exfalso
        have : (finishJob s1 i o).2 = [finishEvent i o] := by cases o <;> rfl
        rw [this, List.mem_singleton] at hev
        cases o <;> simp [finishEvent] at hev
      | kick =>
        show ∃ tr1 tr2, tr0 ++ (processQueue s1).2 = tr1 ++ QueueEvent.started i2 :: tr2 ∧
          ∃ e ∈ tr1, isTerminalEventFor i1 e
        rcases processQueue_cases s1 with hcase | ⟨i0, js2, hidle, hmk, hcase⟩
        · rw [hcase] at hev
          exact absurd hev (List.not_mem_nil _)
        · rw [hcase] at hev ⊢
          dsimp only at hev ⊢
          have hi20 : i2 = i0 := by
            rcases List.mem_cons.mp hev with hc | hc
            · exact QueueEvent.started.inj hc
            · exact absurd hc (List.not_mem_nil _)
          subst hi20
          have hrun2 : ∃ j ∈ (processQueue s1).1.jobs, j.id = i2 ∧ j.status = .running := by
            rw [hcase]
            exact start_has_running hmk
          obtain ⟨e, he, hef⟩ := terminal_before_start hwf2 hbef hrun2
          refine ⟨tr0, [], rfl, e, ?_, hef⟩
          have hetr : e ∈ tr0 ++ (processQueue s1).2 := he
          rw [hcase] at hetr
          dsimp only at hetr
          rcases List.mem_append.mp hetr with h5 | h5
          · exact h5
          · exfalso
            rcases List.mem_cons.mp h5 with h6 | h6
            · rcases hef with hef1 | ⟨msg, hef2⟩
              · rw [hef1] at h6
                exact QueueEvent.noConfusion h6
              · rw [hef2] at h6
                exact QueueEvent.noConfusion h6
            · exact absurd h6 (List.not_mem_nil _)

/-- C1: the queue is single-flight FIFO. In every reachable state at most one
record is `running`; whenever `processQueue` advances (`markFirstPending`
succeeds) it picks the first record still `pending` — the oldest, since
records are appended in enqueue order; and on the emitted trace, every
`started i2` event for a job enqueued after `i1` is preceded by a terminal
(`completed`/`failed`) event for `i1`. -/
theorem C1_single_flight_fifo (s : QueueState) (tr : List QueueEvent)
    (h : QueueReaches s tr) :
    countRunning s.jobs ≤ 1 ∧
    (∀ i0 js2, markFirstPending s.jobs = some (i0, js2) →
      ∃ a j0 b, s.jobs = a ++ j0 :: b ∧ (∀ j ∈ a, j.status ≠ JobStatus.pending) ∧
        j0.status = JobStatus.pending ∧ j0.id = i0) ∧
    (∀ i1 i2 u1 u2, addedBefore tr i1 i2 →
      tr = u1 ++ QueueEvent.started i2 :: u2 →
      ∃ e ∈ u1, isTerminalEventFor i1 e) := by
  have hwf := queueReaches_WF h
  have hsp := queueReaches_startedProp h
  refine ⟨hwf.one_running, ?_, ?_⟩
  · intro i0 js2 hmk
    obtain ⟨a, j0, b, hjobs, hnp, hps, hid, _⟩ := markFirstPending_spec hmk
    exact ⟨a, j0, b, hjobs, hnp, hps, hid⟩
  · intro i1 i2 u1 u2 hbef hdec
    have hmem : QueueEvent.started i2 ∈ tr := by
      rw [hdec]
      exact List.mem_append_right _ (List.mem_cons_self _ _)
    obtain ⟨t1, t2, hdect, e, he, hef⟩ := hsp i1 i2 hbef hmem
    obtain ⟨h1, _⟩ := count_le_one_decomp_unique (hwf.started_once i2) hdec hdect
    refine ⟨e, ?_, hef⟩
    rw [h1]
    exact he

/-- Concrete two-job run: enqueue job 1, enqueue job 2, job 1 completes, the
queue kicks and starts job 2; the single-flight bound and the FIFO trace
property hold on the resulting state and trace. -/
theorem C1_single_flight_fifo_witness :
    countRunning [⟨1, JobStatus.completed, none⟩, ⟨2, JobStatus.running, none⟩] ≤ 1 ∧
    ∃ e ∈ [QueueEvent.added 1, QueueEvent.started 1, QueueEvent.added 2,
        QueueEvent.completed 1], isTerminalEventFor 1 e := by
  have r0 : QueueReaches ⟨[], false⟩ [] := QueueReaches.init
  have r1 : QueueReaches ⟨[⟨1, JobStatus.running, none⟩], true⟩
      [QueueEvent.added 1, QueueEvent.started 1] :=
    r0.step (QueueStep.add _ 1 (by intro j hj; exact absurd hj (List.not_mem_nil _)))
  have r2 : QueueReaches
      ⟨[⟨1, JobStatus.running, none⟩, ⟨2, JobStatus.pending, none⟩], true⟩
      [QueueEvent.added 1, QueueEvent.started 1, QueueEvent.added 2] :=
    r1.step (QueueStep.add _ 2 (by
      intro j hj
      rw [List.mem_singleton] at hj
      rw [hj]
      decide))
  have r3 : QueueReaches
      ⟨[⟨1, JobStatus.completed, none⟩, ⟨2, JobStatus.pending, none⟩], false⟩
      [QueueEvent.added 1, QueueEvent.started 1, QueueEvent.added 2,
       QueueEvent.completed 1] :=
    r2.step (QueueStep.finish _ 1 JobOutcome.success
      ⟨⟨1, JobStatus.running, none⟩, List.mem_cons_self _ _, rfl, rfl⟩)
  have r4 : QueueReaches
      ⟨[⟨1, JobStatus.completed, none⟩, ⟨2, JobStatus.running, none⟩], true⟩
      [QueueEvent.added 1, QueueEvent.started 1, QueueEvent.added 2,
       QueueEvent.completed 1, QueueEvent.started 2] :=
    r3.step (QueueStep.kick _)
  have hc := C1_single_flight_fifo _ _ r4
  refine ⟨hc.1, ?_⟩
  exact hc.2.2 1 2
    [QueueEvent.added 1, QueueEvent.started 1, QueueEvent.added 2, QueueEvent.completed 1]
    [] ⟨[], [], [], rfl⟩ rfl

end Bench
